import Mathlib

/-!
Verification development for the Campus Maze Runner program (src/main.py).

The file shallowly embeds the program's core: the recursive randomized
depth-first maze generator (generate_maze / carve), the axis-separated
rectangle collision resolution used by the Player, the revert-style
collision handling used by the pursuer (HOD), the speed/boost logic, and
the per-frame controller logic of Game.update, and then proves or refutes
the specification claims about them.

Modelling conventions:
* pygame integer rectangles become `Rect` with `ℤ` fields;
  `colliderect` is the strict-overlap test `collideb`.
* Python floats used for speeds are modelled as `ℚ` (all values the
  program manipulates are small dyadic-or-decimal constants, and every
  claim about them is robust under exact arithmetic);
  pygame's float→int coordinate coercion truncates toward zero,
  modelled by `ratTrunc`.
* `random.shuffle(dirs)` inside `carve` is modelled by an oracle
  `shuffle : ℕ → List (ℤ × ℤ)` consulted with a fresh counter value at
  each call; theorems assume only that each `shuffle s` is a permutation
  of the direction list.
* The Python recursion in `carve` is modelled with a fuel parameter large
  enough to never run out (the recursion depth is bounded by the number of
  uncarved lattice cells, which the fuel dominates).
* A Python statement that can raise IndexError (the unguarded
  `grid[1][1] = 0` on a degenerate grid) is modelled by `Option`.
-/

/-! ### Configuration constants (src/main.py lines 19-22) -/

def WIDTH : ℤ := 900
def HEIGHT : ℤ := 600
def TILE : ℤ := 40
def MAX_LEVEL : ℤ := 5

/-! ### Rectangles and pygame collision -/

structure Rect where
  x : ℤ
  y : ℤ
  w : ℤ
  h : ℤ
deriving DecidableEq, Repr

/-- pygame `Rect.colliderect`: strict overlap on both axes. -/
def collideb (a b : Rect) : Bool :=
  decide (a.x < b.x + b.w) && decide (b.x < a.x + a.w) &&
  decide (a.y < b.y + b.h) && decide (b.y < a.y + a.h)

/-- Propositional form of `collideb`. -/
def Collides (a b : Rect) : Prop :=
  a.x < b.x + b.w ∧ b.x < a.x + a.w ∧ a.y < b.y + b.h ∧ b.y < a.y + a.h

theorem collideb_iff (a b : Rect) : collideb a b = true ↔ Collides a b := by
  simp [collideb, Collides, and_assoc]

instance (a b : Rect) : Decidable (Collides a b) := by
  unfold Collides; infer_instance

/-- Truncation toward zero, as pygame/C-int coercion and Python `int()`
apply to floats. -/
def ratTrunc (q : ℚ) : ℤ :=
  if q < 0 then -Rat.floor (-q) else Rat.floor q

/-! ### Maze generator (src/main.py lines 64-81)

The grid is a list of rows, each a list of cells, `1` = WALL, `0` = FLOOR,
indexed `grid[row][col]` exactly as in the source.  `carve(x, y)` is the
recursive randomized DFS; positions are `(x, y)` pairs with `x` the
column and `y` the row. -/

abbrev Grid := List (List ℕ)

/-- Read `grid[y][x]`; out-of-range reads return WALL (all reads performed
by the program are in range, guarded by the bounds tests in `carve`). -/
def getCell (g : Grid) (y x : ℤ) : ℕ :=
  (g.getD y.toNat []).getD x.toNat 1

/-- Write `grid[y][x] = v`; out-of-range writes are dropped (all writes
performed by the program on a non-degenerate grid are in range). -/
def setCell (g : Grid) (y x : ℤ) (v : ℕ) : Grid :=
  g.set y.toNat ((g.getD y.toNat []).set x.toNat v)

/-- The candidate direction list of `carve` before shuffling. -/
def dirs : List (ℤ × ℤ) := [(2, 0), (-2, 0), (0, 2), (0, -2)]

mutual

/-- `carve(x, y)` from `generate_maze`: shuffle the four directions and
process them in order.  `s` is the call counter consumed by the shuffle
oracle; `fuel` bounds the recursion depth (zero fuel returns the grid
unchanged, a case that is unreachable with the fuel `generate_maze`
supplies). -/
def carve (shuffle : ℕ → List (ℤ × ℤ)) (cols rows : ℤ) (fuel : ℕ) (g : Grid)
    (x y : ℤ) (s : ℕ) : Grid × ℕ :=
  match fuel with
  | 0 => (g, s)
  | f + 1 => carveGo shuffle cols rows f g x y (shuffle s) (s + 1)
termination_by (fuel, 0)

/-- The body of `carve`'s `for dx,dy in dirs` loop: try each direction;
on success carve the connector cell and the target cell, recurse into the
target, and continue the loop on the updated grid. -/
def carveGo (shuffle : ℕ → List (ℤ × ℤ)) (cols rows : ℤ) (fuel : ℕ) (g : Grid)
    (x y : ℤ) (ds : List (ℤ × ℤ)) (s : ℕ) : Grid × ℕ :=
  match ds with
  | [] => (g, s)
  | d :: rest =>
    let nx := x + d.1
    let ny := y + d.2
    if 1 ≤ nx ∧ nx < cols - 1 ∧ 1 ≤ ny ∧ ny < rows - 1 ∧ getCell g ny nx = 1 then
      let g1 := setCell g (y + d.2 / 2) (x + d.1 / 2) 0
      let g2 := setCell g1 ny nx 0
      let r := carve shuffle cols rows fuel g2 nx ny s
      carveGo shuffle cols rows fuel r.1 x y rest r.2
    else
      carveGo shuffle cols rows fuel g x y rest s
termination_by (fuel, ds.length + 1)

end

/-- The `if n % 2 == 0: n += 1` odd-adjustment applied to both requested
dimensions. -/
def oddAdjust (n : ℤ) : ℤ := if n % 2 = 0 then n + 1 else n

/-- `generate_maze` up to (but not including) the final forced
`grid[rows-2][cols-2] = 0`.  Returns `none` exactly when the unguarded
`grid[1][1] = 0` would raise IndexError (degenerate dimensions). -/
def mazeCore (shuffle : ℕ → List (ℤ × ℤ)) (cols0 rows0 : ℤ) : Option Grid :=
  let cols := oddAdjust cols0
  let rows := oddAdjust rows0
  let grid : Grid := List.replicate rows.toNat (List.replicate cols.toNat 1)
  if 1 < rows.toNat ∧ 1 < cols.toNat then
    let grid := setCell grid 1 1 0
    some (carve shuffle cols rows (rows.toNat * cols.toNat) grid 1 1 0).1
  else
    none

/-- `generate_maze(cols, rows)`: odd-adjust, carve from (1,1), then force
the exit cell `grid[rows-2][cols-2]` to FLOOR. -/
def generate_maze (shuffle : ℕ → List (ℤ × ℤ)) (cols0 rows0 : ℤ) : Option Grid :=
  let cols := oddAdjust cols0
  let rows := oddAdjust rows0
  (mazeCore shuffle cols0 rows0).map fun g => setCell g (rows - 2) (cols - 2) 0

/-! ### Input state -/

/-- Per-frame directional key state fed to `Player.update`. -/
structure Keys where
  left : Bool
  right : Bool
  up : Bool
  down : Bool
deriving DecidableEq, Repr

/-! ### Player (src/main.py lines 107-152) -/

structure Player where
  name : String
  gender : String
  base_speed : ℚ
  speed : ℚ
  rect : Rect
  lives : ℤ
  score : ℤ
  boost_timer : ℤ
deriving DecidableEq, Repr

/-- `Player.__init__`: 30×30 box at `(x, y)`, base speed 4.0, 3 lives. -/
def mkPlayer (name gender : String) (x y : ℤ) : Player :=
  { name := name, gender := gender, base_speed := 4, speed := 4,
    rect := ⟨x, y, 30, 30⟩, lives := 3, score := 0, boost_timer := 0 }

/-- Horizontal move-and-collide phase of `Player.update`: add `dx`, then
for every wall in order clamp the leading edge onto the wall's facing
edge whenever the boxes overlap. -/
def resolveX (r : Rect) (dx : ℚ) (walls : List Rect) : Rect :=
  walls.foldl
    (fun cur w =>
      if collideb cur w then
        if dx > 0 then { cur with x := w.x - cur.w }
        else if dx < 0 then { cur with x := w.x + w.w }
        else cur
      else cur)
    { r with x := ratTrunc ((r.x : ℚ) + dx) }

/-- Vertical move-and-collide phase of `Player.update`. -/
def resolveY (r : Rect) (dy : ℚ) (walls : List Rect) : Rect :=
  walls.foldl
    (fun cur w =>
      if collideb cur w then
        if dy > 0 then { cur with y := w.y - cur.h }
        else if dy < 0 then { cur with y := w.y + w.h }
        else cur
      else cur)
    { r with y := ratTrunc ((r.y : ℚ) + dy) }

/-- `Player.update(keys, walls)`: directional intent to displacement
(later assignment wins when opposite keys are both pressed), X then Y
resolution, then the boost-timer tick. -/
def Player.update (p : Player) (k : Keys) (walls : List Rect) : Player :=
  let dx : ℚ := if k.right then p.speed else if k.left then -p.speed else 0
  let dy : ℚ := if k.down then p.speed else if k.up then -p.speed else 0
  let r1 := resolveX p.rect dx walls
  let r2 := resolveY r1 dy walls
  if p.boost_timer > 0 then
    let t := p.boost_timer - 1
    { p with rect := r2, boost_timer := t,
             speed := if t = 0 then p.base_speed else p.speed }
  else
    { p with rect := r2 }

/-- `Player.boost(amount, duration)`: cap the boosted speed at 8.0 and arm
the frame countdown. -/
def Player.boost (p : Player) (amount : ℚ) (duration : ℤ) : Player :=
  { p with speed := min (p.base_speed + amount) 8, boost_timer := duration }

/-! ### HOD, the pursuer (src/main.py lines 154-177) -/

structure HOD where
  rect : Rect
  base_speed : ℚ
  speed : ℚ
deriving DecidableEq, Repr

/-- `HOD.__init__`: 34×34 box, base speed 1.0. -/
def mkHOD (x y : ℤ) : HOD :=
  { rect := ⟨x, y, 34, 34⟩, base_speed := 1, speed := 1 }

/-- The per-axis chase heading: `1 if self < target else -1`. -/
def hodHeading (own target : ℤ) : ℤ := if own < target then 1 else -1

/-- Horizontal phase of `HOD.update`: add the displacement, then for every
wall in order subtract it again whenever the boxes overlap. -/
def hodResolveX (r : Rect) (m : ℤ) (walls : List Rect) : Rect :=
  walls.foldl
    (fun cur w => if collideb cur w then { cur with x := cur.x - m } else cur)
    { r with x := r.x + m }

/-- Vertical phase of `HOD.update`. -/
def hodResolveY (r : Rect) (m : ℤ) (walls : List Rect) : Rect :=
  walls.foldl
    (fun cur w => if collideb cur w then { cur with y := cur.y - m } else cur)
    { r with y := r.y + m }

/-- `HOD.update(target_rect, walls, level)`: level-scaled speed, sign
heading toward the target on each axis, revert-style collision handling. -/
def HOD.update (h : HOD) (target : Rect) (walls : List Rect) (level : ℤ) : HOD :=
  let speed := h.base_speed + (15 / 100 : ℚ) * ((level : ℚ) - 1)
  let dx := hodHeading h.rect.x target.x
  let dy := hodHeading h.rect.y target.y
  let mx := ratTrunc ((dx : ℚ) * speed)
  let r1 := hodResolveX h.rect mx walls
  let my := ratTrunc ((dy : ℚ) * speed)
  let r2 := hodResolveY r1 my walls
  { h with speed := speed, rect := r2 }

/-! ### Game controller (src/main.py lines 180-271, 305-372) -/

inductive GState where
  | TITLE
  | PLAY
  | HIT
  | LEVELCLEAR
  | GAMEOVER
deriving DecidableEq, Repr

structure Game where
  level : ℤ
  state : GState
  player_name : String
  gender : String
  player : Player
  hod : HOD
  gate : Rect
  walls : List Rect
  notes : List Rect
  hit_timer : ℤ
deriving DecidableEq, Repr

/-- The spawn data `start_level` derives from the generated grid and the
random collectible draws: the wall boxes, the first / last / middle free
cells, and the chosen collectible cells. -/
structure LevelData where
  walls : List Rect
  startPos : ℤ × ℤ
  endPos : ℤ × ℤ
  midPos : ℤ × ℤ
  notesPos : List (ℤ × ℤ)
deriving Repr

/-- `Note.__init__`: a 20×20 box centered in the tile at `(x, y)`. -/
def noteRect (x y : ℤ) : Rect := ⟨x + 10, y + 10, 20, 20⟩

/-- Derivation of `LevelData` performed by `start_level` (lines 205-236):
scan the 15×22 tile window of the grid, tile `(c, r)` becomes a wall box
when `grid[r][c] = 1` and a free cell otherwise; the player spawns at the
first free cell, the gate at the last, the HOD at the middle one, and
`6 + level*2` collectible cells are drawn by the `choice` oracle. -/
def mkLevelData (grid : Grid) (choice : ℕ → ℕ) (level : ℤ) : LevelData :=
  let rows := (HEIGHT / TILE).toNat
  let cols := (WIDTH / TILE).toNat
  let cells := (List.range rows).flatMap fun r => (List.range cols).map fun c => (r, c)
  let walls := (cells.filter fun rc => getCell grid rc.1 rc.2 = 1).map
    fun rc => (⟨(rc.2 : ℤ) * TILE, (rc.1 : ℤ) * TILE, TILE, TILE⟩ : Rect)
  let spawns := (cells.filter fun rc => ¬ getCell grid rc.1 rc.2 = 1).map
    fun rc => ((rc.2 : ℤ) * TILE, (rc.1 : ℤ) * TILE)
  { walls := walls,
    startPos := spawns.getD 0 (0, 0),
    endPos := spawns.getD (spawns.length - 1) (0, 0),
    midPos := spawns.getD (spawns.length / 2) (0, 0),
    notesPos := (List.range (6 + 2 * level).toNat).map
      fun i => spawns.getD (choice i % spawns.length) (0, 0) }

/-- `Game.start_level(level)`: fresh player (3 lives, score 0, base speed),
gate, HOD and collectibles from the level data, defensive speed re-clamp,
state set to PLAY.  The level counter itself is not modified here. -/
def Game.start_level (game : Game) (ld : LevelData) : Game :=
  let player := mkPlayer game.player_name game.gender (ld.startPos.1 + 6) (ld.startPos.2 + 6)
  let gate : Rect := ⟨ld.endPos.1, ld.endPos.2, TILE, TILE⟩
  let hod := mkHOD ld.midPos.1 ld.midPos.2
  let hod := if hod.speed ≥ player.base_speed
    then { hod with base_speed := max (1 / 2 : ℚ) (player.base_speed - 5 / 2) }
    else hod
  { game with player := player, hod := hod, gate := gate,
              walls := ld.walls, notes := ld.notesPos.map fun p => noteRect p.1 p.2,
              state := GState.PLAY }

/-- Movement phase of `Game.update`: the player moves first, then the HOD
chases the player's already-updated box. -/
def phaseMove (g : Game) (k : Keys) : Game :=
  let p := g.player.update k g.walls
  { g with player := p, hod := g.hod.update p.rect g.walls g.level }

/-- Collectible phase of `Game.update`: `spritecollide(..., True)` removes
every overlapped note; any hit scores 100 each and re-arms the boost. -/
def phaseNotes (g : Game) : Game :=
  let hits := g.notes.filter fun n => collideb g.player.rect n
  let notes := g.notes.filter fun n => ¬ collideb g.player.rect n
  if 0 < hits.length then
    let p1 := { g.player with score := g.player.score + 100 * hits.length }
    { g with notes := notes, player := p1.boost 2 240 }
  else
    { g with notes := notes }

/-- Catch phase of `Game.update`: on player/HOD overlap decrement lives,
then GAMEOVER when they are exhausted, otherwise HIT with a 90-frame
timer. -/
def phaseCatch (g : Game) : Game :=
  if collideb g.player.rect g.hod.rect then
    let p := { g.player with lives := g.player.lives - 1 }
    if p.lives ≤ 0 then
      { g with player := p, state := GState.GAMEOVER }
    else
      { g with player := p, state := GState.HIT, hit_timer := 90 }
  else
    g

/-- Gate phase of `Game.update`: on player/gate overlap award 1000 when
the lives are still at 3 (500 otherwise), enter LEVELCLEAR, and increment
the level, clamped at MAX_LEVEL. -/
def phaseGate (g : Game) : Game :=
  if collideb g.player.rect g.gate then
    let lvl := g.level + 1
    let p := { g.player with
      score := g.player.score + (if g.player.lives = 3 then 1000 else 500) }
    { g with player := p, state := GState.LEVELCLEAR,
             level := if lvl > MAX_LEVEL then MAX_LEVEL else lvl }
  else
    g

/-- `Game.update(keys)`: one simulation frame; does nothing outside PLAY
(the main loop only calls it in PLAY, and the embedded guard makes the
function total on states). -/
def Game.update (g : Game) (k : Keys) : Game :=
  if g.state = GState.PLAY then
    phaseGate (phaseCatch (phaseNotes (phaseMove g k)))
  else
    g

/-! ### Within-level runs (main loop, lines 312-368)

Events a level can experience between its `start_level` and the next
level's `start_level`: a simulated frame, or the ENTER continue pressed
in the HIT state, which repositions both movers to fixed corners and
resumes PLAY.  (Continuing out of LEVELCLEAR starts the next level and
continuing out of GAMEOVER resets the run, both of which leave the
current level, so they are identities here.) -/

inductive Ev where
  | frame (k : Keys)
  | cont
deriving Repr

def levelStep (g : Game) (e : Ev) : Game :=
  match e with
  | Ev.frame k => g.update k
  | Ev.cont =>
    if g.state = GState.HIT then
      { g with player := { g.player with rect := { g.player.rect with x := 10, y := 10 } },
               hod := { g.hod with rect := { g.hod.rect with x := WIDTH - 80, y := HEIGHT - 80 } },
               state := GState.PLAY }
    else
      g

def runLevel (g : Game) (es : List Ev) : Game := es.foldl levelStep g

/-- Whether one event makes the catch branch of `Game.update` fire:
the frame is simulated (state PLAY) and the moved boxes overlap. -/
def catchFlag (g : Game) (e : Ev) : ℕ :=
  match e with
  | Ev.frame k =>
    if g.state = GState.PLAY ∧
        collideb (phaseNotes (phaseMove g k)).player.rect
          (phaseNotes (phaseMove g k)).hod.rect = true then 1 else 0
  | Ev.cont => 0

/-- Number of life-losing catch events along a within-level run. -/
def catchCount : Game → List Ev → ℕ
  | _, [] => 0
  | g, e :: es => catchFlag g e + catchCount (levelStep g e) es

/-! ### Basic facts about truncation -/

theorem ratTrunc_eq (q : ℚ) : ratTrunc q = if q < 0 then ⌈q⌉ else ⌊q⌋ := by
  unfold ratTrunc
  have h1 : ∀ r : ℚ, Rat.floor r = ⌊r⌋ := fun r => rfl
  rw [h1, h1]
  rcases lt_or_le q 0 with h | h
  · rw [if_pos h, if_pos h, Int.floor_neg, neg_neg]
  · rw [if_neg (not_lt.2 h), if_neg (not_lt.2 h)]

theorem floor_le_ratTrunc (q : ℚ) : ⌊q⌋ ≤ ratTrunc q := by
  rw [ratTrunc_eq]
  rcases lt_or_le q 0 with h | h
  · rw [if_pos h]; exact Int.floor_le_ceil q
  · rw [if_neg (not_lt.2 h)]

theorem ratTrunc_le_ceil (q : ℚ) : ratTrunc q ≤ ⌈q⌉ := by
  rw [ratTrunc_eq]
  rcases lt_or_le q 0 with h | h
  · rw [if_pos h]
  · rw [if_neg (not_lt.2 h)]; exact Int.floor_le_ceil q

theorem ratTrunc_intCast (n : ℤ) : ratTrunc (n : ℚ) = n := by
  rw [ratTrunc_eq]
  rcases lt_or_le (n : ℚ) 0 with h | h
  · rw [if_pos h, Int.ceil_intCast]
  · rw [if_neg (not_lt.2 h), Int.floor_intCast]

/-- Bounds for the truncated move `ratTrunc (x + d)` when `0 ≤ d ≤ c`. -/
theorem ratTrunc_add_bounds_pos (x c : ℤ) (d : ℚ) (h0 : 0 ≤ d) (hc : d ≤ (c : ℚ)) :
    x ≤ ratTrunc ((x : ℚ) + d) ∧ ratTrunc ((x : ℚ) + d) ≤ x + c := by
  constructor
  · calc x ≤ ⌊(x : ℚ) + d⌋ := Int.le_floor.2 (by linarith)
      _ ≤ _ := floor_le_ratTrunc _
  · calc ratTrunc ((x : ℚ) + d) ≤ ⌈(x : ℚ) + d⌉ := ratTrunc_le_ceil _
      _ ≤ x + c := Int.ceil_le.2 (by push_cast; linarith)

/-- Bounds for the truncated move `ratTrunc (x + d)` when `-c ≤ d ≤ 0`. -/
theorem ratTrunc_add_bounds_neg (x c : ℤ) (d : ℚ) (h0 : d ≤ 0) (hc : -(c : ℚ) ≤ d) :
    x - c ≤ ratTrunc ((x : ℚ) + d) ∧ ratTrunc ((x : ℚ) + d) ≤ x := by
  constructor
  · calc (x - c : ℤ) ≤ ⌊(x : ℚ) + d⌋ := Int.le_floor.2 (by push_cast; linarith)
      _ ≤ _ := floor_le_ratTrunc _
  · calc ratTrunc ((x : ℚ) + d) ≤ ⌈(x : ℚ) + d⌉ := ratTrunc_le_ceil _
      _ ≤ x := Int.ceil_le.2 (by linarith)

/-! ### Claim C5: pursuer speed stays below the player's base speed -/

theorem hod_update_speed (h : HOD) (target : Rect) (walls : List Rect) (level : ℤ) :
    (h.update target walls level).speed = h.base_speed + (15 / 100 : ℚ) * ((level : ℚ) - 1) := by
  rfl

/-- C5: for every level in 1..MAX_LEVEL, the pursuer's current speed,
computed by `HOD.update` as base + 0.15·(level − 1) from the constructed
base speed 1.0, is strictly less than the constructed player's base
speed 4.0. -/
theorem C5_pursuer_slower_than_player (h : HOD) (target : Rect) (walls : List Rect)
    (level : ℤ) (hb : h.base_speed = 1) (h1 : 1 ≤ level) (h2 : level ≤ MAX_LEVEL)
    (nm gd : String) (px py : ℤ) :
    (h.update target walls level).speed < (mkPlayer nm gd px py).base_speed := by
  rw [hod_update_speed, hb]
  show (1 : ℚ) + 15 / 100 * ((level : ℚ) - 1) < 4
  have h5 : (level : ℚ) ≤ 5 := by exact_mod_cast h2
  linarith

/-- Witness for C5 at level 3. -/
theorem C5_pursuer_slower_than_player_witness :
    (HOD.update (mkHOD 0 0) ⟨0, 0, 30, 30⟩ [] 3).speed <
      (mkPlayer "Player" "Male" 0 0).base_speed :=
  C5_pursuer_slower_than_player (mkHOD 0 0) ⟨0, 0, 30, 30⟩ [] 3 rfl (by decide)
    (by decide) "Player" "Male" 0 0

/-! ### Claim C8: the chase heading is not the three-valued sign -/

/-- C8 counterexample: when the pursuer's coordinate equals the target's,
the code's heading `1 if self < target else -1` yields −1, while
sign(target − own) is 0, refuting the claim that the heading equals the
sign on every frame. -/
theorem C8_heading_cex :
    hodHeading 5 5 = -1 ∧ Int.sign ((5 : ℤ) - 5) = 0 ∧
      hodHeading 5 5 ≠ Int.sign ((5 : ℤ) - 5) := by
  decide

/-- C8 amended: the pursuer's per-axis heading equals sign(target − own)
whenever the coordinates differ, and is −1 (not 0) when they are equal. -/
theorem C8_heading_amended (own target : ℤ) :
    hodHeading own target = if own = target then -1 else Int.sign (target - own) := by
  unfold hodHeading
  rcases lt_trichotomy own target with h | h | h
  · rw [if_pos h, if_neg (ne_of_lt h), Int.sign_eq_one_of_pos (by omega)]
  · subst h
    rw [if_neg (lt_irrefl own), if_pos rfl]
  · rw [if_neg (not_lt.2 (le_of_lt h)), if_neg (ne_of_gt h),
      Int.sign_eq_neg_one_of_neg (by omega)]

/-! ### Claim C7: the two movers do not share one resolution primitive -/

/-- The fold of `HOD.update`'s per-axis collision loop leaves a box that
overlaps no wall unchanged. -/
theorem hodFold_stay (m : ℤ) :
    ∀ (ws : List Rect) (r : Rect), (∀ w ∈ ws, ¬ Collides r w) →
      ws.foldl (fun cur w => if collideb cur w then { cur with x := cur.x - m } else cur) r = r := by
  intro ws
  induction ws with
  | nil => intro r _; rfl
  | cons w ws ih =>
    intro r hr
    have hw : ¬ Collides r w := hr w (List.mem_cons_self w ws)
    have hb : collideb r w = false := by
      rw [← Bool.not_eq_true, collideb_iff]; exact hw
    simp only [List.foldl_cons, hb, Bool.false_eq_true, if_false]
    exact ih r fun u hu => hr u (List.mem_cons_of_mem w hu)

/-- Characterization of the pursuer's per-axis handling: starting from a
wall-free box, the horizontal phase either keeps the full displacement
(no overlap at the moved position) or undoes it entirely. -/
theorem hodResolveX_eq (r : Rect) (m : ℤ) (walls : List Rect)
    (hclean : ∀ w ∈ walls, ¬ Collides r w) :
    hodResolveX r m walls =
      if walls.any (fun w => collideb ⟨r.x + m, r.y, r.w, r.h⟩ w) then r
      else ⟨r.x + m, r.y, r.w, r.h⟩ := by
  unfold hodResolveX
  revert hclean
  induction walls with
  | nil => intro _; rfl
  | cons w ws ih =>
    intro hclean
    have hcl : ∀ u ∈ ws, ¬ Collides r u := fun u hu => hclean u (List.mem_cons_of_mem w hu)
    rcases hb : collideb ⟨r.x + m, r.y, r.w, r.h⟩ w with _ | _
    · simp only [List.foldl_cons, List.any_cons, hb, Bool.false_eq_true, if_false,
        Bool.false_or]
      exact ih hcl
    · simp only [List.foldl_cons, List.any_cons, hb, if_true, Bool.true_or]
      have hx : r.x + m - m = r.x := by ring
      rw [hx]
      exact hodFold_stay m ws r hcl

/-- C7 counterexample: with identical inputs — box at (8,0) of size 30×30,
attempted displacement +4, a single 40×40 wall at (40,0) — the Player's
resolver clamps flush to the wall (x becomes 10) while the pursuer's
resolver undoes the whole move (x stays 8), so the two primitives differ. -/
theorem C7_resolver_cex :
    ¬ Collides ⟨8, 0, 30, 30⟩ ⟨40, 0, 40, 40⟩ ∧
    (resolveX ⟨8, 0, 30, 30⟩ 4 [⟨40, 0, 40, 40⟩]).x = 10 ∧
    (hodResolveX ⟨8, 0, 30, 30⟩ 4 [⟨40, 0, 40, 40⟩]).x = 8 ∧
    resolveX ⟨8, 0, 30, 30⟩ 4 [⟨40, 0, 40, 40⟩] ≠
      hodResolveX ⟨8, 0, 30, 30⟩ 4 [⟨40, 0, 40, 40⟩] := by
  have hcast : (((8 : ℤ) : ℚ) + 4) = ((12 : ℤ) : ℚ) := by norm_num
  have hX : resolveX ⟨8, 0, 30, 30⟩ 4 [⟨40, 0, 40, 40⟩] = ⟨10, 0, 30, 30⟩ := by
    unfold resolveX
    rw [show ({ (⟨8, 0, 30, 30⟩ : Rect) with
        x := ratTrunc (((⟨8, 0, 30, 30⟩ : Rect).x : ℚ) + 4) }) = (⟨12, 0, 30, 30⟩ : Rect) by
      show (⟨ratTrunc (((8 : ℤ) : ℚ) + 4), 0, 30, 30⟩ : Rect) = _
      rw [hcast, ratTrunc_intCast]]
    have h4 : (4 : ℚ) > 0 := by norm_num
    simp only [List.foldl_cons, List.foldl_nil, if_pos h4]
    norm_num [collideb]
  have hH : hodResolveX ⟨8, 0, 30, 30⟩ 4 [⟨40, 0, 40, 40⟩] = ⟨8, 0, 30, 30⟩ := by
    rw [hodResolveX_eq _ _ _ (by decide)]
    norm_num [collideb]
  rw [hX, hH]
  refine ⟨by decide, rfl, rfl, by decide⟩

/-- C7 amended: the pursuer does not use the Player's edge-clamping
primitive; on each axis it reverts the attempted displacement outright
whenever the moved box overlaps any wall, so from a wall-free position the
resolved box is either the fully moved box or the original one (never a
box clamped flush against the wall). -/
theorem C7_hod_revert_amended (r : Rect) (m : ℤ) (walls : List Rect)
    (hclean : ∀ w ∈ walls, ¬ Collides r w) :
    hodResolveX r m walls =
      if walls.any (fun w => collideb ⟨r.x + m, r.y, r.w, r.h⟩ w) then r
      else ⟨r.x + m, r.y, r.w, r.h⟩ :=
  hodResolveX_eq r m walls hclean

/-- Witness for the amended C7: a wall-free single-wall configuration where
the moved box overlaps, so the pursuer ends exactly where it started. -/
theorem C7_hod_revert_amended_witness :
    hodResolveX ⟨8, 0, 30, 30⟩ 4 [⟨40, 0, 40, 40⟩] =
      if [(⟨40, 0, 40, 40⟩ : Rect)].any
          (fun w => collideb ⟨8 + 4, 0, 30, 30⟩ w) then ⟨8, 0, 30, 30⟩
      else ⟨8 + 4, 0, 30, 30⟩ :=
  C7_hod_revert_amended ⟨8, 0, 30, 30⟩ 4 [⟨40, 0, 40, 40⟩] (by decide)

/-! ### Claim C6: boost arming, expiry and refresh -/

/-- Iterated frames of `Player.update` over a list of per-frame inputs. -/
def playerRun (p : Player) (steps : List (Keys × List Rect)) : Player :=
  steps.foldl (fun q st => q.update st.1 st.2) p

theorem Player.update_base_speed (p : Player) (k : Keys) (walls : List Rect) :
    (p.update k walls).base_speed = p.base_speed := by
  unfold Player.update; dsimp only; split <;> rfl

theorem Player.update_timer_of_pos (p : Player) (k : Keys) (walls : List Rect)
    (h : 0 < p.boost_timer) :
    (p.update k walls).boost_timer = p.boost_timer - 1 ∧
    (p.update k walls).speed = (if p.boost_timer - 1 = 0 then p.base_speed else p.speed) := by
  unfold Player.update; dsimp only
  rw [if_pos h]
  exact ⟨rfl, rfl⟩

/-- While strictly more frames remain on the countdown than are simulated,
the speed is untouched, the countdown just decreases, and the base speed
is preserved. -/
theorem playerRun_active :
    ∀ (steps : List (Keys × List Rect)) (p : Player),
      (steps.length : ℤ) < p.boost_timer →
      (playerRun p steps).speed = p.speed ∧
      (playerRun p steps).base_speed = p.base_speed ∧
      (playerRun p steps).boost_timer = p.boost_timer - steps.length := by
  intro steps
  induction steps with
  | nil => intro p _; exact ⟨rfl, rfl, by simp [playerRun]⟩
  | cons st rest ih =>
    intro p hlen
    have hlen' : (rest.length : ℤ) + 1 < p.boost_timer := by
      simpa [List.length_cons, add_comm] using hlen
    have hpos : 0 < p.boost_timer := by omega
    obtain ⟨ht, hs⟩ := Player.update_timer_of_pos p st.1 st.2 hpos
    have hne : ¬ p.boost_timer - 1 = 0 := by omega
    rw [if_neg hne] at hs
    have hrun : playerRun p (st :: rest) = playerRun (p.update st.1 st.2) rest := rfl
    have hrec := ih (p.update st.1 st.2) (by rw [ht]; omega)
    refine ⟨?_, ?_, ?_⟩
    · rw [hrun, hrec.1, hs]
    · rw [hrun, hrec.2.1, Player.update_base_speed]
    · rw [hrun, hrec.2.2, ht, List.length_cons]
      push_cast
      ring

/-- When exactly as many frames are simulated as the countdown holds, the
speed has reverted to the base speed and the countdown has reached zero. -/
theorem playerRun_expire :
    ∀ (steps : List (Keys × List Rect)) (p : Player),
      0 < p.boost_timer → (steps.length : ℤ) = p.boost_timer →
      (playerRun p steps).speed = p.base_speed ∧
      (playerRun p steps).boost_timer = 0 := by
  intro steps
  induction steps with
  | nil =>
    intro p hpos hlen
    simp only [List.length_nil, Nat.cast_zero] at hlen
    omega
  | cons st rest ih =>
    intro p hpos hlen
    obtain ⟨ht, hs⟩ := Player.update_timer_of_pos p st.1 st.2 hpos
    have hrun : playerRun p (st :: rest) = playerRun (p.update st.1 st.2) rest := rfl
    have hlen' : (rest.length : ℤ) + 1 = p.boost_timer := by
      simpa [List.length_cons, add_comm] using hlen
    rcases Nat.eq_zero_or_pos rest.length with h0 | hposlen
    · have hrest : rest = [] := List.length_eq_zero.1 h0
      subst hrest
      simp only [List.length_nil, Nat.cast_zero, zero_add] at hlen'
      have h1 : p.boost_timer - 1 = 0 := by omega
      rw [if_pos h1] at hs
      rw [hrun]
      simp only [playerRun, List.foldl_nil]
      exact ⟨hs, by rw [ht, h1]⟩
    · have hne : ¬ p.boost_timer - 1 = 0 := by omega
      rw [if_neg hne] at hs
      have hrec := ih (p.update st.1 st.2) (by omega) (by rw [ht]; omega)
      rw [hrun]
      refine ⟨?_, hrec.2⟩
      rw [hrec.1, Player.update_base_speed]

/-- C6: `Player.boost` immediately sets the speed to min(base + boost, 8)
and arms the countdown; with no further pickup the speed is still the
boosted value strictly before the configured number of frames and is
exactly the base speed after exactly that many frames; and a pickup while
the boost is active resets the countdown to its full duration without
changing the speed. -/
theorem C6_boost_speed_lifecycle (p : Player) (amount : ℚ) (dur : ℤ)
    (steps : List (Keys × List Rect)) :
    ((p.boost amount dur).speed = min (p.base_speed + amount) 8 ∧
      (p.boost amount dur).boost_timer = dur) ∧
    ((steps.length : ℤ) < dur →
      (playerRun (p.boost amount dur) steps).speed = min (p.base_speed + amount) 8 ∧
      ((playerRun (p.boost amount dur) steps).boost amount dur).boost_timer = dur ∧
      ((playerRun (p.boost amount dur) steps).boost amount dur).speed
        = (p.boost amount dur).speed) ∧
    (0 < dur → (steps.length : ℤ) = dur →
      (playerRun (p.boost amount dur) steps).speed = p.base_speed ∧
      (playerRun (p.boost amount dur) steps).boost_timer = 0) := by
  have hb : (p.boost amount dur).speed = min (p.base_speed + amount) 8 := rfl
  have hbt : (p.boost amount dur).boost_timer = dur := rfl
  have hbb : (p.boost amount dur).base_speed = p.base_speed := rfl
  refine ⟨⟨hb, hbt⟩, ?_, ?_⟩
  · intro hlt
    have hrec := playerRun_active steps (p.boost amount dur) (by rw [hbt]; exact hlt)
    refine ⟨by rw [hrec.1, hb], rfl, ?_⟩
    show min ((playerRun (p.boost amount dur) steps).base_speed + amount) 8 = _
    rw [hrec.2.1, hbb, hb]
  · intro hdur heq
    have hpos : 0 < (p.boost amount dur).boost_timer := by rw [hbt]; omega
    have hrec := playerRun_expire steps (p.boost amount dur) hpos (by rw [hbt]; exact heq)
    exact ⟨by rw [hrec.1, hbb], hrec.2⟩

/-- Witness for C6: durations 2 and 1 with idle frames; after one of two
frames the boost is still active and a re-boost just refreshes the timer;
after exactly one frame of a one-frame boost the speed is back to base. -/
theorem C6_boost_speed_lifecycle_witness :
    ((playerRun ((mkPlayer "P" "F" 0 0).boost 2 2) [(⟨false, false, false, false⟩, [])]).speed
        = min ((mkPlayer "P" "F" 0 0).base_speed + 2) 8 ∧
      ((playerRun ((mkPlayer "P" "F" 0 0).boost 2 2)
          [(⟨false, false, false, false⟩, [])]).boost 2 2).boost_timer = 2 ∧
      ((playerRun ((mkPlayer "P" "F" 0 0).boost 2 2)
          [(⟨false, false, false, false⟩, [])]).boost 2 2).speed
        = ((mkPlayer "P" "F" 0 0).boost 2 2).speed) ∧
    ((playerRun ((mkPlayer "P" "F" 0 0).boost 2 1) [(⟨false, false, false, false⟩, [])]).speed
        = (mkPlayer "P" "F" 0 0).base_speed ∧
      (playerRun ((mkPlayer "P" "F" 0 0).boost 2 1)
          [(⟨false, false, false, false⟩, [])]).boost_timer = 0) :=
  ⟨(C6_boost_speed_lifecycle (mkPlayer "P" "F" 0 0) 2 2
      [(⟨false, false, false, false⟩, [])]).2.1 (by decide),
   (C6_boost_speed_lifecycle (mkPlayer "P" "F" 0 0) 2 1
      [(⟨false, false, false, false⟩, [])]).2.2 (by decide) (by decide)⟩

/-! ### Claim C2: resolved steps never end overlapping a wall

The key argument is about one axis.  For a rightward move the clamp
position of a wall is its left edge minus the box width; the invariant
below records, for each processed wall, why the final position cannot
re-enter it: either the wall misses the box vertically, or the current
position is already at or left of the wall's clamp position, or the wall
lies entirely left of the starting position (which the position never
moves back past). -/

def yOverlap (a b : Rect) : Prop := a.y < b.y + b.h ∧ b.y < a.y + a.h

/-- Safety certificate for one wall during a rightward X resolution. -/
def SafeXpos (orig : Rect) (p : ℤ) (w : Rect) : Prop :=
  ¬ yOverlap orig w ∨ p + orig.w ≤ w.x ∨ w.x + w.w ≤ orig.x

/-- Safety certificate for one wall during a leftward X resolution. -/
def SafeXneg (orig : Rect) (p : ℤ) (w : Rect) : Prop :=
  ¬ yOverlap orig w ∨ w.x + w.w ≤ p ∨ orig.x + orig.w ≤ w.x

theorem resolveX_fold_pos (dx : ℚ) (hdx : 0 < dx) (orig : Rect) (hw : 0 < orig.w) :
    ∀ (ws : List Rect) (p : ℤ),
      (∀ w ∈ ws, w.w = TILE) →
      (∀ w ∈ ws, ¬ Collides orig w) →
      orig.x ≤ p → p ≤ orig.x + TILE →
      ∃ q, List.foldl
          (fun cur w =>
            if collideb cur w then
              if dx > 0 then { cur with x := w.x - cur.w }
              else if dx < 0 then { cur with x := w.x + w.w }
              else cur
            else cur)
          ⟨p, orig.y, orig.w, orig.h⟩ ws = ⟨q, orig.y, orig.w, orig.h⟩ ∧
        orig.x ≤ q ∧ q ≤ p ∧
        (∀ w : Rect, SafeXpos orig p w → SafeXpos orig q w) ∧
        (∀ w ∈ ws, SafeXpos orig q w) := by
  intro ws
  induction ws with
  | nil =>
    intro p _ _ hlo _
    exact ⟨p, rfl, hlo, le_refl p, fun w h => h, by simp⟩
  | cons w ws ih =>
    intro p htile hclean hlo hhi
    have htw : w.w = TILE := htile w (List.mem_cons_self w ws)
    have hclw : ¬ Collides orig w := hclean w (List.mem_cons_self w ws)
    have htile' : ∀ u ∈ ws, u.w = TILE := fun u hu => htile u (List.mem_cons_of_mem w hu)
    have hclean' : ∀ u ∈ ws, ¬ Collides orig u := fun u hu =>
      hclean u (List.mem_cons_of_mem w hu)
    simp only [List.foldl_cons]
    by_cases hc : Collides (⟨p, orig.y, orig.w, orig.h⟩ : Rect) w
    · have hcb : collideb (⟨p, orig.y, orig.w, orig.h⟩ : Rect) w = true :=
        (collideb_iff _ _).2 hc
      rw [hcb, if_pos rfl, if_pos hdx]
      have hcx : p < w.x + w.w ∧ w.x < p + orig.w ∧ yOverlap orig w := by
        obtain ⟨a, b, c, d⟩ := hc
        exact ⟨a, b, c, d⟩
      have hyov : yOverlap orig w := hcx.2.2
      have hsplit : w.x + w.w ≤ orig.x ∨ orig.x + orig.w ≤ w.x := by
        by_contra hcon
        push_neg at hcon
        exact hclw ⟨hcon.1, hcon.2, hyov.1, hyov.2⟩
      have hlo' : orig.x ≤ w.x - orig.w := by
        rcases hsplit with h | h
        · omega
        · omega
      have hle : w.x - orig.w ≤ p := by
        have := hcx.2.1
        omega
      obtain ⟨q, heq, hq1, hq2, hstab, hall⟩ :=
        ih (w.x - orig.w) htile' hclean' hlo' (by omega)
      refine ⟨q, heq, hq1, le_trans hq2 hle, ?_, ?_⟩
      · intro u hu
        apply hstab
        rcases hu with h | h | h
        · exact Or.inl h
        · exact Or.inr (Or.inl (by omega))
        · exact Or.inr (Or.inr h)
      · intro u hu
        rcases List.mem_cons.1 hu with rfl | hmem
        · exact hstab u (Or.inr (Or.inl (by omega)))
        · exact hall u hmem
    · have hcb : collideb (⟨p, orig.y, orig.w, orig.h⟩ : Rect) w = false := by
        rw [← Bool.not_eq_true, collideb_iff]; exact hc
      rw [hcb]
      simp only [Bool.false_eq_true, if_false]
      have hsafe : SafeXpos orig p w := by
        by_cases hy : yOverlap orig w
        · have hx : w.x + w.w ≤ p ∨ p + orig.w ≤ w.x := by
            by_contra hcon
            push_neg at hcon
            exact hc ⟨show p < w.x + w.w by omega, show w.x < p + orig.w by omega,
              hy.1, hy.2⟩
          rcases hx with h | h
          · have hsplit : w.x + w.w ≤ orig.x ∨ orig.x + orig.w ≤ w.x := by
              by_contra hcon
              push_neg at hcon
              exact hclw ⟨hcon.1, hcon.2, hy.1, hy.2⟩
            rcases hsplit with h2 | h2
            · exact Or.inr (Or.inr h2)
            · exfalso
              omega
          · exact Or.inr (Or.inl h)
        · exact Or.inl hy
      obtain ⟨q, heq, hq1, hq2, hstab, hall⟩ := ih p htile' hclean' hlo hhi
      exact ⟨q, heq, hq1, hq2, hstab, fun u hu => by
        rcases List.mem_cons.1 hu with rfl | hmem
        · exact hstab u hsafe
        · exact hall u hmem⟩

theorem resolveX_fold_neg (dx : ℚ) (hdx : dx < 0) (orig : Rect) (hw : 0 < orig.w) :
    ∀ (ws : List Rect) (p : ℤ),
      (∀ w ∈ ws, w.w = TILE) →
      (∀ w ∈ ws, ¬ Collides orig w) →
      orig.x - TILE ≤ p → p ≤ orig.x →
      ∃ q, List.foldl
          (fun cur w =>
            if collideb cur w then
              if dx > 0 then { cur with x := w.x - cur.w }
              else if dx < 0 then { cur with x := w.x + w.w }
              else cur
            else cur)
          ⟨p, orig.y, orig.w, orig.h⟩ ws = ⟨q, orig.y, orig.w, orig.h⟩ ∧
        p ≤ q ∧ q ≤ orig.x ∧
        (∀ w : Rect, SafeXneg orig p w → SafeXneg orig q w) ∧
        (∀ w ∈ ws, SafeXneg orig q w) := by
  intro ws
  induction ws with
  | nil =>
    intro p _ _ _ hhi
    exact ⟨p, rfl, le_refl p, hhi, fun w h => h, by simp⟩
  | cons w ws ih =>
    intro p htile hclean hlo hhi
    have htw : w.w = TILE := htile w (List.mem_cons_self w ws)
    have hclw : ¬ Collides orig w := hclean w (List.mem_cons_self w ws)
    have htile' : ∀ u ∈ ws, u.w = TILE := fun u hu => htile u (List.mem_cons_of_mem w hu)
    have hclean' : ∀ u ∈ ws, ¬ Collides orig u := fun u hu =>
      hclean u (List.mem_cons_of_mem w hu)
    have hnpos : ¬ dx > 0 := by exact not_lt.2 (le_of_lt hdx)
    simp only [List.foldl_cons]
    by_cases hc : Collides (⟨p, orig.y, orig.w, orig.h⟩ : Rect) w
    · have hcb : collideb (⟨p, orig.y, orig.w, orig.h⟩ : Rect) w = true :=
        (collideb_iff _ _).2 hc
      rw [hcb, if_pos rfl, if_neg hnpos, if_pos hdx]
      have hcx : p < w.x + w.w ∧ w.x < p + orig.w ∧ yOverlap orig w := by
        obtain ⟨a, b, c, d⟩ := hc
        exact ⟨a, b, c, d⟩
      have hyov : yOverlap orig w := hcx.2.2
      have hsplit : w.x + w.w ≤ orig.x ∨ orig.x + orig.w ≤ w.x := by
        by_contra hcon
        push_neg at hcon
        exact hclw ⟨hcon.1, hcon.2, hyov.1, hyov.2⟩
      have hhi' : w.x + w.w ≤ orig.x := by
        rcases hsplit with h | h
        · exact h
        · exfalso
          have := hcx.2.1
          omega
      have hle : p ≤ w.x + w.w := le_of_lt hcx.1
      obtain ⟨q, heq, hq1, hq2, hstab, hall⟩ :=
        ih (w.x + w.w) htile' hclean' (by omega) hhi'
      refine ⟨q, heq, le_trans hle hq1, hq2, ?_, ?_⟩
      · intro u hu
        apply hstab
        rcases hu with h | h | h
        · exact Or.inl h
        · exact Or.inr (Or.inl (by omega))
        · exact Or.inr (Or.inr h)
      · intro u hu
        rcases List.mem_cons.1 hu with rfl | hmem
        · exact hstab u (Or.inr (Or.inl (by omega)))
        · exact hall u hmem
    · have hcb : collideb (⟨p, orig.y, orig.w, orig.h⟩ : Rect) w = false := by
        rw [← Bool.not_eq_true, collideb_iff]; exact hc
      rw [hcb]
      simp only [Bool.false_eq_true, if_false]
      have hsafe : SafeXneg orig p w := by
        by_cases hy : yOverlap orig w
        · have hx : w.x + w.w ≤ p ∨ p + orig.w ≤ w.x := by
            by_contra hcon
            push_neg at hcon
            exact hc ⟨show p < w.x + w.w by omega, show w.x < p + orig.w by omega,
              hy.1, hy.2⟩
          rcases hx with h | h
          · exact Or.inr (Or.inl h)
          · have hsplit : w.x + w.w ≤ orig.x ∨ orig.x + orig.w ≤ w.x := by
              by_contra hcon
              push_neg at hcon
              exact hclw ⟨hcon.1, hcon.2, hy.1, hy.2⟩
            rcases hsplit with h2 | h2
            · exfalso
              omega
            · exact Or.inr (Or.inr h2)
        · exact Or.inl hy
      obtain ⟨q, heq, hq1, hq2, hstab, hall⟩ := ih p htile' hclean' hlo hhi
      exact ⟨q, heq, hq1, hq2, hstab, fun u hu => by
        rcases List.mem_cons.1 hu with rfl | hmem
        · exact hstab u hsafe
        · exact hall u hmem⟩

theorem resolveX_fold_zero (dx : ℚ) (h0 : ¬ dx > 0) (h0' : ¬ dx < 0) :
    ∀ (ws : List Rect) (cur : Rect),
      List.foldl
        (fun cur w =>
          if collideb cur w then
            if dx > 0 then { cur with x := w.x - cur.w }
            else if dx < 0 then { cur with x := w.x + w.w }
            else cur
          else cur)
        cur ws = cur := by
  intro ws
  induction ws with
  | nil => intro cur; rfl
  | cons w ws ih =>
    intro cur
    simp only [List.foldl_cons]
    by_cases hc : collideb cur w
    · rw [hc, if_pos rfl, if_neg h0, if_neg h0']
      exact ih cur
    · rw [Bool.not_eq_true] at hc
      rw [hc]
      simp only [Bool.false_eq_true, if_false]
      exact ih cur

/-- Safety of one resolved X step: with tile-wide walls, a positive-width
box, a displacement of magnitude at most one tile, and a wall-free start,
the resolved box is wall-free (and only the x coordinate changed). -/
theorem resolveX_safe (r : Rect) (dx : ℚ) (walls : List Rect)
    (htile : ∀ w ∈ walls, w.w = TILE) (hrw : 0 < r.w)
    (hdx : |dx| ≤ (TILE : ℚ)) (hclean : ∀ w ∈ walls, ¬ Collides r w) :
    ∃ q, resolveX r dx walls = ⟨q, r.y, r.w, r.h⟩ ∧
      ∀ w ∈ walls, ¬ Collides (⟨q, r.y, r.w, r.h⟩ : Rect) w := by
  have habs := abs_le.1 hdx
  rcases lt_trichotomy (0 : ℚ) dx with hpos | hzero | hneg
  · obtain ⟨hb1, hb2⟩ := ratTrunc_add_bounds_pos r.x TILE dx (le_of_lt hpos)
      (by exact_mod_cast habs.2)
    obtain ⟨q, heq, hq1, hq2, _, hall⟩ :=
      resolveX_fold_pos dx hpos r hrw walls (ratTrunc ((r.x : ℚ) + dx)) htile hclean hb1 hb2
    refine ⟨q, heq, fun w hw hcol => ?_⟩
    have hc4 : q < w.x + w.w ∧ w.x < q + r.w ∧ r.y < w.y + w.h ∧ w.y < r.y + r.h := hcol
    rcases hall w hw with hy | hx | hx
    · exact hy ⟨hc4.2.2.1, hc4.2.2.2⟩
    · have := hc4.2.1
      omega
    · have := hc4.1
      omega
  · obtain ⟨q, heq⟩ : ∃ q, resolveX r dx walls = ⟨q, r.y, r.w, r.h⟩ := by
      refine ⟨r.x, ?_⟩
      unfold resolveX
      rw [resolveX_fold_zero dx (by rw [← hzero]; exact lt_irrefl 0)
            (by rw [← hzero]; exact lt_irrefl 0)]
      rw [← hzero, add_zero, ratTrunc_intCast]
    refine ⟨q, heq, fun w hw => ?_⟩
    have hq : q = r.x := by
      have := heq
      rw [resolveX] at this
      rw [resolveX_fold_zero dx (by rw [← hzero]; exact lt_irrefl 0)
            (by rw [← hzero]; exact lt_irrefl 0)] at this
      rw [← hzero, add_zero, ratTrunc_intCast] at this
      have hx := congrArg Rect.x this
      exact hx.symm
    rw [hq]
    intro hcol
    exact hclean w hw hcol
  · obtain ⟨hb1, hb2⟩ := ratTrunc_add_bounds_neg r.x TILE dx (le_of_lt hneg)
      (by exact_mod_cast habs.1)
    obtain ⟨q, heq, hq1, hq2, _, hall⟩ :=
      resolveX_fold_neg dx hneg r hrw walls (ratTrunc ((r.x : ℚ) + dx)) htile hclean hb1 hb2
    refine ⟨q, heq, fun w hw hcol => ?_⟩
    have hc4 : q < w.x + w.w ∧ w.x < q + r.w ∧ r.y < w.y + w.h ∧ w.y < r.y + r.h := hcol
    rcases hall w hw with hy | hx | hx
    · exact hy ⟨hc4.2.2.1, hc4.2.2.2⟩
    · have := hc4.1
      omega
    · have := hc4.2.1
      omega

/-! ### Transposition: the Y phase is the X phase on swapped axes -/

def Rect.swapXY (r : Rect) : Rect := ⟨r.y, r.x, r.h, r.w⟩

theorem swapXY_swapXY (r : Rect) : r.swapXY.swapXY = r := rfl

theorem Collides_swapXY (a b : Rect) : Collides a.swapXY b.swapXY ↔ Collides a b := by
  unfold Collides Rect.swapXY
  dsimp only
  tauto

theorem collideb_swapXY (a b : Rect) : collideb a.swapXY b.swapXY = collideb a b := by
  rcases h : collideb a b with _ | _
  · rw [← Bool.not_eq_true] at h ⊢
    rw [collideb_iff] at h ⊢
    rw [Collides_swapXY]
    exact h
  · rw [collideb_iff] at h ⊢
    rw [Collides_swapXY]
    exact h

theorem foldY_swap (dy : ℚ) :
    ∀ (ws : List Rect) (cur : Rect),
      List.foldl
        (fun c w =>
          if collideb c w then
            if dy > 0 then { c with x := w.x - c.w }
            else if dy < 0 then { c with x := w.x + w.w }
            else c
          else c)
        cur.swapXY (ws.map Rect.swapXY) =
      (List.foldl
        (fun c w =>
          if collideb c w then
            if dy > 0 then { c with y := w.y - c.h }
            else if dy < 0 then { c with y := w.y + w.h }
            else c
          else c)
        cur ws).swapXY := by
  intro ws
  induction ws with
  | nil => intro cur; rfl
  | cons w ws ih =>
    intro cur
    simp only [List.map_cons, List.foldl_cons]
    have hstep :
        (if collideb cur.swapXY w.swapXY then
          if dy > 0 then { cur.swapXY with x := w.swapXY.x - cur.swapXY.w }
          else if dy < 0 then { cur.swapXY with x := w.swapXY.x + w.swapXY.w }
          else cur.swapXY
        else cur.swapXY) =
        (if collideb cur w then
          if dy > 0 then { cur with y := w.y - cur.h }
          else if dy < 0 then { cur with y := w.y + w.h }
          else cur
        else cur).swapXY := by
      rw [collideb_swapXY]
      rcases hc : collideb cur w with _ | _
      · simp only [Bool.false_eq_true, if_false]
      · simp only [if_true]
        split_ifs <;> rfl
    rw [hstep, ih]

theorem resolveY_eq_swap (r : Rect) (dy : ℚ) (walls : List Rect) :
    resolveY r dy walls = (resolveX r.swapXY dy (walls.map Rect.swapXY)).swapXY := by
  unfold resolveX resolveY
  rw [List.foldl_map]
  have h := foldY_swap dy walls { r with y := ratTrunc ((r.y : ℚ) + dy) }
  rw [List.foldl_map] at h
  exact (congrArg Rect.swapXY h).symm

/-- Safety of one resolved Y step, by transposition from `resolveX_safe`. -/
theorem resolveY_safe (r : Rect) (dy : ℚ) (walls : List Rect)
    (htile : ∀ w ∈ walls, w.h = TILE) (hrh : 0 < r.h)
    (hdy : |dy| ≤ (TILE : ℚ)) (hclean : ∀ w ∈ walls, ¬ Collides r w) :
    ∃ q, resolveY r dy walls = ⟨r.x, q, r.w, r.h⟩ ∧
      ∀ w ∈ walls, ¬ Collides (⟨r.x, q, r.w, r.h⟩ : Rect) w := by
  obtain ⟨q, heq, hsafe⟩ :=
    resolveX_safe r.swapXY dy (walls.map Rect.swapXY)
      (by
        intro w hw
        obtain ⟨u, hu, rfl⟩ := List.mem_map.1 hw
        exact htile u hu)
      hrh hdy
      (by
        intro w hw
        obtain ⟨u, hu, rfl⟩ := List.mem_map.1 hw
        rw [show u.swapXY = u.swapXY from rfl]
        intro hcol
        exact hclean u hu ((Collides_swapXY r u).1 hcol))
  refine ⟨q, ?_, ?_⟩
  · rw [resolveY_eq_swap, heq]
    rfl
  · intro w hw hcol
    have := hsafe w.swapXY (List.mem_map_of_mem Rect.swapXY hw)
    apply this
    exact (Collides_swapXY (⟨r.x, q, r.w, r.h⟩ : Rect) w).2 hcol

/-! ### HOD vertical phase -/

theorem hodFoldY_stay (m : ℤ) :
    ∀ (ws : List Rect) (r : Rect), (∀ w ∈ ws, ¬ Collides r w) →
      ws.foldl (fun cur w => if collideb cur w then { cur with y := cur.y - m } else cur) r = r := by
  intro ws
  induction ws with
  | nil => intro r _; rfl
  | cons w ws ih =>
    intro r hr
    have hw : ¬ Collides r w := hr w (List.mem_cons_self w ws)
    have hb : collideb r w = false := by
      rw [← Bool.not_eq_true, collideb_iff]; exact hw
    simp only [List.foldl_cons, hb, Bool.false_eq_true, if_false]
    exact ih r fun u hu => hr u (List.mem_cons_of_mem w hu)

theorem hodResolveY_eq (r : Rect) (m : ℤ) (walls : List Rect)
    (hclean : ∀ w ∈ walls, ¬ Collides r w) :
    hodResolveY r m walls =
      if walls.any (fun w => collideb ⟨r.x, r.y + m, r.w, r.h⟩ w) then r
      else ⟨r.x, r.y + m, r.w, r.h⟩ := by
  unfold hodResolveY
  revert hclean
  induction walls with
  | nil => intro _; rfl
  | cons w ws ih =>
    intro hclean
    have hcl : ∀ u ∈ ws, ¬ Collides r u := fun u hu => hclean u (List.mem_cons_of_mem w hu)
    rcases hb : collideb ⟨r.x, r.y + m, r.w, r.h⟩ w with _ | _
    · simp only [List.foldl_cons, List.any_cons, hb, Bool.false_eq_true, if_false,
        Bool.false_or]
      exact ih hcl
    · simp only [List.foldl_cons, List.any_cons, hb, if_true, Bool.true_or]
      have hy : r.y + m - m = r.y := by ring
      rw [hy]
      exact hodFoldY_stay m ws r hcl

/-! ### The C2 theorem -/

/-- One full player move (X phase then Y phase), iterated over a list of
per-axis displacements. -/
def playerMoveSeq (r : Rect) (moves : List (ℚ × ℚ)) (walls : List Rect) : Rect :=
  moves.foldl (fun cur d => resolveY (resolveX cur d.1 walls) d.2 walls) r

/-- One full pursuer move (X phase then Y phase), iterated over a list of
per-axis displacements. -/
def hodMoveSeq (r : Rect) (moves : List (ℤ × ℤ)) (walls : List Rect) : Rect :=
  moves.foldl (fun cur d => hodResolveY (hodResolveX cur d.1 walls) d.2 walls) r

theorem playerStep_safe (walls : List Rect)
    (htile : ∀ w ∈ walls, w.w = TILE ∧ w.h = TILE)
    (r : Rect) (dx dy : ℚ) (hrw : 0 < r.w) (hrh : 0 < r.h)
    (hdx : |dx| ≤ (TILE : ℚ)) (hdy : |dy| ≤ (TILE : ℚ))
    (hclean : ∀ w ∈ walls, ¬ Collides r w) :
    (∀ w ∈ walls, ¬ Collides (resolveY (resolveX r dx walls) dy walls) w) ∧
    (resolveY (resolveX r dx walls) dy walls).w = r.w ∧
    (resolveY (resolveX r dx walls) dy walls).h = r.h := by
  obtain ⟨q, heqX, hsafeX⟩ :=
    resolveX_safe r dx walls (fun w hw => (htile w hw).1) hrw hdx hclean
  obtain ⟨q2, heqY, hsafeY⟩ :=
    resolveY_safe (⟨q, r.y, r.w, r.h⟩ : Rect) dy walls
      (fun w hw => (htile w hw).2) hrh hdy hsafeX
  rw [heqX, heqY]
  exact ⟨hsafeY, rfl, rfl⟩

theorem hodStep_safe (walls : List Rect) (r : Rect) (mx my : ℤ)
    (hclean : ∀ w ∈ walls, ¬ Collides r w) :
    (∀ w ∈ walls, ¬ Collides (hodResolveY (hodResolveX r mx walls) my walls) w) ∧
    (hodResolveY (hodResolveX r mx walls) my walls).w = r.w ∧
    (hodResolveY (hodResolveX r mx walls) my walls).h = r.h := by
  have hX := hodResolveX_eq r mx walls hclean
  have hcleanX : ∀ w ∈ walls, ¬ Collides (hodResolveX r mx walls) w := by
    intro w hw
    rw [hX]
    split
    · exact hclean w hw
    · rename_i hany
      intro hcol
      apply hany
      rw [List.any_eq_true]
      exact ⟨w, hw, (collideb_iff _ _).2 hcol⟩
  have hshapeX : (hodResolveX r mx walls).w = r.w ∧ (hodResolveX r mx walls).h = r.h := by
    rw [hX]
    split
    · exact ⟨rfl, rfl⟩
    · exact ⟨rfl, rfl⟩
  have hY := hodResolveY_eq (hodResolveX r mx walls) my walls hcleanX
  constructor
  · intro w hw
    rw [hY]
    split
    · exact hcleanX w hw
    · rename_i hany
      intro hcol
      apply hany
      rw [List.any_eq_true]
      exact ⟨w, hw, (collideb_iff _ _).2 hcol⟩
  · rw [hY]
    split
    · exact hshapeX
    · exact hshapeX

/-- C2: for a single resolved step of the Player (X then Y clamping) or of
the Pursuer (X then Y revert), a mover whose box overlaps no wall before
the step and whose per-axis displacement magnitude is at most one tile
ends the step overlapping no wall; consequently, along any sequence of
such moves the box never overlaps a wall. -/
theorem C2_resolved_steps_never_overlap_walls (walls : List Rect)
    (htile : ∀ w ∈ walls, w.w = TILE ∧ w.h = TILE) :
    (∀ (r : Rect) (dx dy : ℚ), 0 < r.w → 0 < r.h →
      |dx| ≤ (TILE : ℚ) → |dy| ≤ (TILE : ℚ) →
      (∀ w ∈ walls, ¬ Collides r w) →
      ∀ w ∈ walls, ¬ Collides (resolveY (resolveX r dx walls) dy walls) w) ∧
    (∀ (r : Rect) (mx my : ℤ), |mx| ≤ TILE → |my| ≤ TILE →
      (∀ w ∈ walls, ¬ Collides r w) →
      ∀ w ∈ walls, ¬ Collides (hodResolveY (hodResolveX r mx walls) my walls) w) ∧
    (∀ (r : Rect) (moves : List (ℚ × ℚ)), 0 < r.w → 0 < r.h →
      (∀ m ∈ moves, |m.1| ≤ (TILE : ℚ) ∧ |m.2| ≤ (TILE : ℚ)) →
      (∀ w ∈ walls, ¬ Collides r w) →
      ∀ w ∈ walls, ¬ Collides (playerMoveSeq r moves walls) w) ∧
    (∀ (r : Rect) (moves : List (ℤ × ℤ)),
      (∀ w ∈ walls, ¬ Collides r w) →
      ∀ w ∈ walls, ¬ Collides (hodMoveSeq r moves walls) w) := by
  refine ⟨?_, ?_, ?_, ?_⟩
  · intro r dx dy hrw hrh hdx hdy hclean
    exact (playerStep_safe walls htile r dx dy hrw hrh hdx hdy hclean).1
  · intro r mx my _ _ hclean
    exact (hodStep_safe walls r mx my hclean).1
  · intro r moves
    induction moves generalizing r with
    | nil => intro _ _ _ hclean; exact hclean
    | cons d rest ih =>
      intro hrw hrh hmag hclean
      have hd := hmag d (List.mem_cons_self d rest)
      obtain ⟨hsafe, hw, hh⟩ :=
        playerStep_safe walls htile r d.1 d.2 hrw hrh hd.1 hd.2 hclean
      have := ih (resolveY (resolveX r d.1 walls) d.2 walls)
        (by rw [hw]; exact hrw) (by rw [hh]; exact hrh)
        (fun m hm => hmag m (List.mem_cons_of_mem d hm)) hsafe
      simpa [playerMoveSeq] using this
  · intro r moves
    induction moves generalizing r with
    | nil => intro hclean; exact hclean
    | cons d rest ih =>
      intro hclean
      obtain ⟨hsafe, _, _⟩ := hodStep_safe walls r d.1 d.2 hclean
      have := ih (hodResolveY (hodResolveX r d.1 walls) d.2 walls) hsafe
      simpa [hodMoveSeq] using this

/-- Witness for C2: a box starting left of a single wall, pushed one step
right into it, ends not overlapping it; likewise for the pursuer. -/
theorem C2_resolved_steps_never_overlap_walls_witness :
    ¬ Collides (resolveY (resolveX ⟨8, 0, 30, 30⟩ 4 [⟨40, 0, 40, 40⟩]) 0 [⟨40, 0, 40, 40⟩])
        ⟨40, 0, 40, 40⟩ ∧
    ¬ Collides (hodResolveY (hodResolveX ⟨8, 0, 30, 30⟩ 4 [⟨40, 0, 40, 40⟩]) 0 [⟨40, 0, 40, 40⟩])
        ⟨40, 0, 40, 40⟩ :=
  ⟨(C2_resolved_steps_never_overlap_walls [⟨40, 0, 40, 40⟩] (by decide)).1
      ⟨8, 0, 30, 30⟩ 4 0 (by decide) (by decide) (by decide) (by decide)
      (by decide) ⟨40, 0, 40, 40⟩ (by decide),
   (C2_resolved_steps_never_overlap_walls [⟨40, 0, 40, 40⟩] (by decide)).2.1
      ⟨8, 0, 30, 30⟩ 4 0 (by decide) (by decide)
      (by decide) ⟨40, 0, 40, 40⟩ (by decide)⟩

/-! ### Frame-phase bookkeeping for the controller claims -/

theorem Player.update_keeps_lives (p : Player) (k : Keys) (walls : List Rect) :
    (p.update k walls).lives = p.lives := by
  unfold Player.update; dsimp only; split <;> rfl

theorem Player.update_score (p : Player) (k : Keys) (walls : List Rect) :
    (p.update k walls).score = p.score := by
  unfold Player.update; dsimp only; split <;> rfl

theorem phaseMove_fields (g : Game) (k : Keys) :
    (phaseMove g k).gate = g.gate ∧ (phaseMove g k).state = g.state ∧
    (phaseMove g k).level = g.level ∧ (phaseMove g k).player.lives = g.player.lives ∧
    (phaseMove g k).player.score = g.player.score ∧ (phaseMove g k).notes = g.notes := by
  refine ⟨rfl, rfl, rfl, ?_, ?_, rfl⟩
  · exact Player.update_keeps_lives g.player k g.walls
  · exact Player.update_score g.player k g.walls

theorem phaseNotes_fields (g : Game) :
    (phaseNotes g).player.lives = g.player.lives ∧
    (phaseNotes g).player.rect = g.player.rect ∧
    (phaseNotes g).hod = g.hod ∧
    (phaseNotes g).gate = g.gate ∧
    (phaseNotes g).state = g.state ∧
    (phaseNotes g).level = g.level := by
  unfold phaseNotes Player.boost
  dsimp only
  split <;> exact ⟨rfl, rfl, rfl, rfl, rfl, rfl⟩

theorem phaseCatch_collide (g : Game) (h : Collides g.player.rect g.hod.rect) :
    (phaseCatch g).player.lives = g.player.lives - 1 ∧
    (phaseCatch g).state = (if g.player.lives - 1 ≤ 0 then GState.GAMEOVER else GState.HIT) ∧
    (phaseCatch g).player.rect = g.player.rect ∧
    (phaseCatch g).gate = g.gate ∧
    (phaseCatch g).player.score = g.player.score ∧
    (phaseCatch g).level = g.level := by
  unfold phaseCatch
  rw [if_pos ((collideb_iff _ _).2 h)]
  dsimp only
  by_cases hle : g.player.lives - 1 ≤ 0
  · rw [if_pos (show ({ g.player with lives := g.player.lives - 1 } : Player).lives ≤ 0 from hle),
      if_pos hle]
    exact ⟨rfl, rfl, rfl, rfl, rfl, rfl⟩
  · rw [if_neg (show ¬ ({ g.player with lives := g.player.lives - 1 } : Player).lives ≤ 0 from hle),
      if_neg hle]
    exact ⟨rfl, rfl, rfl, rfl, rfl, rfl⟩

theorem phaseCatch_nocollide (g : Game) (h : ¬ Collides g.player.rect g.hod.rect) :
    phaseCatch g = g := by
  unfold phaseCatch
  have hb : collideb g.player.rect g.hod.rect = false := by
    rw [← Bool.not_eq_true, collideb_iff]; exact h
  rw [hb]
  simp only [Bool.false_eq_true, if_false]

theorem phaseGate_collide (g : Game) (h : Collides g.player.rect g.gate) :
    (phaseGate g).state = GState.LEVELCLEAR ∧
    (phaseGate g).level = (if g.level + 1 > MAX_LEVEL then MAX_LEVEL else g.level + 1) ∧
    (phaseGate g).player.score
      = g.player.score + (if g.player.lives = 3 then 1000 else 500) ∧
    (phaseGate g).player.lives = g.player.lives := by
  unfold phaseGate
  rw [if_pos ((collideb_iff _ _).2 h)]
  exact ⟨rfl, rfl, rfl, rfl⟩

theorem phaseGate_nocollide (g : Game) (h : ¬ Collides g.player.rect g.gate) :
    phaseGate g = g := by
  unfold phaseGate
  have hb : collideb g.player.rect g.gate = false := by
    rw [← Bool.not_eq_true, collideb_iff]; exact h
  rw [hb]
  simp only [Bool.false_eq_true, if_false]

/-! ### Claim C3: catch handling, and the gate overriding it -/

def cexKeys : Keys := ⟨false, false, false, false⟩

def cexPlayer : Player :=
  { name := "P", gender := "F", base_speed := 4, speed := 4,
    rect := ⟨0, 0, 30, 30⟩, lives := 3, score := 0, boost_timer := 0 }

def cexHod : HOD := { rect := ⟨5, 5, 34, 34⟩, base_speed := 1, speed := 1 }

/-- A PLAY-state frame in which the player's box overlaps the pursuer's:
the player idles at (0,0), the pursuer sits on top of it, and the gate's
position is a parameter. -/
def cexGame (gate : Rect) : Game :=
  { level := 1, state := GState.PLAY, player_name := "P", gender := "F",
    player := cexPlayer, hod := cexHod, gate := gate, walls := [], notes := [],
    hit_timer := 0 }

theorem phaseMove_cex (gate : Rect) :
    phaseMove (cexGame gate) cexKeys =
      { cexGame gate with hod := { rect := ⟨4, 4, 34, 34⟩, base_speed := 1, speed := 1 } } := by
  have hceil : ⌈(-1 : ℚ)⌉ = -1 := by
    rw [show ((-1 : ℚ)) = (((-1 : ℤ)) : ℚ) by push_cast; ring]
    exact Int.ceil_intCast (-1)
  unfold phaseMove Player.update HOD.update cexGame cexPlayer cexHod cexKeys
    resolveX resolveY hodResolveX hodResolveY hodHeading
  norm_num [ratTrunc_eq, hceil]

theorem phaseNotes_cex (g : Game) (hnotes : g.notes = []) : phaseNotes g = g := by
  unfold phaseNotes
  rw [hnotes]
  dsimp only [List.filter_nil, List.length_nil]
  rw [if_neg (lt_irrefl 0)]
  rw [← hnotes]

/-- C3 counterexample: a PLAY frame in which the player's box overlaps
both the pursuer's box and the gate.  The lives counter does decrease by
one and stays positive, yet the frame does not end in HIT: the gate check
runs afterwards and overwrites the state with LEVELCLEAR. -/
theorem C3_catch_cex :
    (cexGame ⟨0, 0, 40, 40⟩).state = GState.PLAY ∧
    Collides (phaseNotes (phaseMove (cexGame ⟨0, 0, 40, 40⟩) cexKeys)).player.rect
      (phaseNotes (phaseMove (cexGame ⟨0, 0, 40, 40⟩) cexKeys)).hod.rect ∧
    ((cexGame ⟨0, 0, 40, 40⟩).update cexKeys).player.lives
      = (cexGame ⟨0, 0, 40, 40⟩).player.lives - 1 ∧
    0 < ((cexGame ⟨0, 0, 40, 40⟩).update cexKeys).player.lives ∧
    ((cexGame ⟨0, 0, 40, 40⟩).update cexKeys).state = GState.LEVELCLEAR ∧
    ((cexGame ⟨0, 0, 40, 40⟩).update cexKeys).state ≠ GState.HIT := by
  have hmove := phaseMove_cex ⟨0, 0, 40, 40⟩
  set gm : Game :=
    { cexGame ⟨0, 0, 40, 40⟩ with
      hod := { rect := ⟨4, 4, 34, 34⟩, base_speed := 1, speed := 1 } } with hgm
  have hnotes : phaseNotes gm = gm := phaseNotes_cex gm rfl
  have hupd : (cexGame ⟨0, 0, 40, 40⟩).update cexKeys = phaseGate (phaseCatch gm) := by
    unfold Game.update
    rw [if_pos (show (cexGame ⟨0, 0, 40, 40⟩).state = GState.PLAY from rfl), hmove, hnotes]
  have hcatchCol : Collides gm.player.rect gm.hod.rect := by decide
  obtain ⟨hl, hs, hr, hgt, hsc, hlv⟩ := phaseCatch_collide gm hcatchCol
  have hgateCol : Collides (phaseCatch gm).player.rect (phaseCatch gm).gate := by
    rw [hr, hgt]
    decide
  obtain ⟨hgs, hglvl, hgsc, hglives⟩ := phaseGate_collide (phaseCatch gm) hgateCol
  refine ⟨rfl, ?_, ?_, ?_, ?_, ?_⟩
  · rw [hmove, hnotes]
    exact hcatchCol
  · rw [hupd, hglives, hl]
  · rw [hupd, hglives, hl]
    decide
  · rw [hupd]
    exact hgs
  · rw [hupd, hgs]
    decide

/-- C3 amended: in a PLAY frame in which the player's box overlaps the
pursuer's box and does not also overlap the gate, the lives counter
decreases by exactly 1 and the state becomes HIT when lives remain
positive after the decrement and GAMEOVER when they reach 0.  (When the
player also overlaps the gate in the same frame, the lives still
decrement but the later gate check overwrites the state with
LEVELCLEAR.) -/
theorem C3_catch_amended (g : Game) (k : Keys)
    (hplay : g.state = GState.PLAY)
    (hcatch : Collides (phaseNotes (phaseMove g k)).player.rect
      (phaseNotes (phaseMove g k)).hod.rect)
    (hnogate : ¬ Collides (phaseNotes (phaseMove g k)).player.rect g.gate) :
    (g.update k).player.lives = g.player.lives - 1 ∧
    (0 < g.player.lives - 1 → (g.update k).state = GState.HIT) ∧
    (g.player.lives - 1 = 0 → (g.update k).state = GState.GAMEOVER) := by
  set g2 := phaseNotes (phaseMove g k) with hg2
  have hupd : g.update k = phaseGate (phaseCatch g2) := by
    unfold Game.update
    rw [if_pos hplay]
  obtain ⟨hl, hs, hr, hgt, hsc, hlv⟩ := phaseCatch_collide g2 hcatch
  have hl2 : g2.player.lives = g.player.lives := by
    rw [hg2, (phaseNotes_fields _).1, (phaseMove_fields g k).2.2.2.1]
  have hgt2 : g2.gate = g.gate := by
    rw [hg2, (phaseNotes_fields _).2.2.2.1, (phaseMove_fields g k).1]
  have hnog3 : ¬ Collides (phaseCatch g2).player.rect (phaseCatch g2).gate := by
    rw [hr, hgt, hgt2]
    exact hnogate
  have hgate : phaseGate (phaseCatch g2) = phaseCatch g2 := phaseGate_nocollide _ hnog3
  rw [hupd, hgate]
  refine ⟨by rw [hl, hl2], ?_, ?_⟩
  · intro hpos
    rw [hs, hl2, if_neg (by omega)]
  · intro hz
    rw [hs, hl2, if_pos (by omega)]

/-- Witness for the amended C3: the same overlap configuration but with
the gate far away; the frame ends in HIT with one life lost. -/
theorem C3_catch_amended_witness :
    ((cexGame ⟨500, 0, 40, 40⟩).update cexKeys).player.lives
      = (cexGame ⟨500, 0, 40, 40⟩).player.lives - 1 ∧
    (0 < (cexGame ⟨500, 0, 40, 40⟩).player.lives - 1 →
      ((cexGame ⟨500, 0, 40, 40⟩).update cexKeys).state = GState.HIT) ∧
    ((cexGame ⟨500, 0, 40, 40⟩).player.lives - 1 = 0 →
      ((cexGame ⟨500, 0, 40, 40⟩).update cexKeys).state = GState.GAMEOVER) :=
  C3_catch_amended (cexGame ⟨500, 0, 40, 40⟩) cexKeys rfl
    (by
      rw [phaseMove_cex, phaseNotes_cex _ rfl]
      decide)
    (by
      rw [phaseMove_cex, phaseNotes_cex _ rfl]
      decide)

/-! ### Claim C4: gate clears the level; bonus tracks lives lost this level -/

theorem phaseCatch_level (g : Game) : (phaseCatch g).level = g.level := by
  unfold phaseCatch
  dsimp only
  split
  · split <;> rfl
  · rfl

theorem phaseCatch_lives (g : Game) :
    (phaseCatch g).player.lives =
      g.player.lives - (if Collides g.player.rect g.hod.rect then 1 else 0) := by
  by_cases hc : Collides g.player.rect g.hod.rect
  · rw [(phaseCatch_collide g hc).1, if_pos hc]
  · rw [phaseCatch_nocollide g hc, if_neg hc]
    omega

theorem phaseGate_lives (g : Game) : (phaseGate g).player.lives = g.player.lives := by
  by_cases hc : Collides g.player.rect g.gate
  · exact (phaseGate_collide g hc).2.2.2
  · rw [phaseGate_nocollide g hc]

/-- Per-frame lives accounting: one frame of `Game.update` subtracts
exactly the catch flag from the lives counter. -/
theorem Game.update_lives (g : Game) (k : Keys) :
    (g.update k).player.lives = g.player.lives - catchFlag g (Ev.frame k) := by
  unfold Game.update catchFlag
  dsimp only
  by_cases hplay : g.state = GState.PLAY
  · rw [if_pos hplay]
    by_cases hc : Collides (phaseNotes (phaseMove g k)).player.rect
        (phaseNotes (phaseMove g k)).hod.rect
    · have hcb : collideb (phaseNotes (phaseMove g k)).player.rect
          (phaseNotes (phaseMove g k)).hod.rect = true := (collideb_iff _ _).2 hc
      rw [if_pos ⟨hplay, hcb⟩, phaseGate_lives, phaseCatch_lives, if_pos hc,
        (phaseNotes_fields _).1, (phaseMove_fields g k).2.2.2.1]
      norm_num
    · have hcb : collideb (phaseNotes (phaseMove g k)).player.rect
          (phaseNotes (phaseMove g k)).hod.rect = false := by
        rw [← Bool.not_eq_true, collideb_iff]; exact hc
      rw [if_neg (fun hcon => by rw [hcb] at hcon; exact Bool.noConfusion hcon.2),
        phaseGate_lives, phaseCatch_lives, if_neg hc,
        (phaseNotes_fields _).1, (phaseMove_fields g k).2.2.2.1]
      omega
  · rw [if_neg hplay, if_neg (fun hcon => hplay hcon.1)]
    omega

theorem levelStep_lives (g : Game) (e : Ev) :
    (levelStep g e).player.lives = g.player.lives - catchFlag g e := by
  cases e with
  | frame k => exact Game.update_lives g k
  | cont =>
    unfold levelStep catchFlag
    dsimp only
    split <;> simp

theorem runLevel_lives :
    ∀ (es : List Ev) (g : Game),
      (runLevel g es).player.lives = g.player.lives - catchCount g es := by
  intro es
  induction es with
  | nil => intro g; simp [runLevel, catchCount]
  | cons e es ih =>
    intro g
    have hstep : runLevel g (e :: es) = runLevel (levelStep g e) es := rfl
    have hcnt : catchCount g (e :: es) = catchFlag g e + catchCount (levelStep g e) es := rfl
    rw [hstep, ih (levelStep g e), levelStep_lives, hcnt]
    push_cast
    ring

theorem runLevel_append (g : Game) (es es2 : List Ev) :
    runLevel g (es ++ es2) = runLevel (runLevel g es) es2 := by
  unfold runLevel
  exact List.foldl_append _ _ _ _

theorem catchCount_append :
    ∀ (es : List Ev) (g : Game) (es2 : List Ev),
      catchCount g (es ++ es2) = catchCount g es + catchCount (runLevel g es) es2 := by
  intro es
  induction es with
  | nil => intro g es2; simp [catchCount, runLevel]
  | cons e es ih =>
    intro g es2
    have h1 : catchCount g ((e :: es) ++ es2)
        = catchFlag g e + catchCount (levelStep g e) (es ++ es2) := rfl
    have h2 : catchCount g (e :: es) = catchFlag g e + catchCount (levelStep g e) es := rfl
    have h3 : runLevel g (e :: es) = runLevel (levelStep g e) es := rfl
    rw [h1, h2, h3, ih (levelStep g e) es2]
    ring

theorem start_level_lives (gp : Game) (ld : LevelData) :
    (gp.start_level ld).player.lives = 3 := rfl

/-- C4: whenever, on a frame of the current level's run, the Player's box
overlaps the Gate in state PLAY, the state becomes LEVELCLEAR, the level
is incremented and clamped at MAX_LEVEL, and the score increases by the
larger bonus (1000) exactly when no lives were lost during the current
level (no catch event since `start_level`), and by the smaller bonus
(500) otherwise. -/
theorem C4_gate_level_clear (gp : Game) (ld : LevelData) (es : List Ev) (k : Keys)
    (hplay : (runLevel (gp.start_level ld) es).state = GState.PLAY)
    (hgate : Collides
      (phaseCatch (phaseNotes (phaseMove (runLevel (gp.start_level ld) es) k))).player.rect
      (phaseCatch (phaseNotes (phaseMove (runLevel (gp.start_level ld) es) k))).gate) :
    (runLevel (gp.start_level ld) (es ++ [Ev.frame k])).state = GState.LEVELCLEAR ∧
    (runLevel (gp.start_level ld) (es ++ [Ev.frame k])).level =
      (if (runLevel (gp.start_level ld) es).level + 1 > MAX_LEVEL then MAX_LEVEL
       else (runLevel (gp.start_level ld) es).level + 1) ∧
    (runLevel (gp.start_level ld) (es ++ [Ev.frame k])).player.score =
      (phaseCatch (phaseNotes (phaseMove (runLevel (gp.start_level ld) es) k))).player.score +
        (if catchCount (gp.start_level ld) (es ++ [Ev.frame k]) = 0 then 1000 else 500) := by
  have hrun : runLevel (gp.start_level ld) (es ++ [Ev.frame k])
      = (runLevel (gp.start_level ld) es).update k := by
    rw [runLevel_append]
    rfl
  have hupd : (runLevel (gp.start_level ld) es).update k
      = phaseGate (phaseCatch (phaseNotes (phaseMove (runLevel (gp.start_level ld) es) k))) := by
    unfold Game.update
    rw [if_pos hplay]
  obtain ⟨hgs, hglvl, hgsc, hglives⟩ := phaseGate_collide _ hgate
  have hlev3 :
      (phaseCatch (phaseNotes (phaseMove (runLevel (gp.start_level ld) es) k))).level
        = (runLevel (gp.start_level ld) es).level := by
    rw [phaseCatch_level, (phaseNotes_fields _).2.2.2.2.2, (phaseMove_fields _ k).2.2.1]
  have hlives3 :
      (phaseCatch (phaseNotes (phaseMove (runLevel (gp.start_level ld) es) k))).player.lives
        = 3 - (catchCount (gp.start_level ld) (es ++ [Ev.frame k]) : ℤ) := by
    have h1 := runLevel_lives (es ++ [Ev.frame k]) (gp.start_level ld)
    rw [hrun, hupd, phaseGate_lives, start_level_lives] at h1
    exact h1
  refine ⟨?_, ?_, ?_⟩
  · rw [hrun, hupd]
    exact hgs
  · rw [hrun, hupd, hglvl, hlev3]
  · rw [hrun, hupd, hgsc, hlives3]
    have hiff : (3 - (catchCount (gp.start_level ld) (es ++ [Ev.frame k]) : ℤ) = 3)
        ↔ (catchCount (gp.start_level ld) (es ++ [Ev.frame k]) = 0) := by omega
    rw [if_congr hiff rfl rfl]

def ld0 : LevelData :=
  { walls := [], startPos := (0, 0), endPos := (0, 0), midPos := (500, 500), notesPos := [] }

theorem phaseMove_w :
    phaseMove ((cexGame ⟨0, 0, 40, 40⟩).start_level ld0) cexKeys =
      { (cexGame ⟨0, 0, 40, 40⟩).start_level ld0 with
        hod := { rect := ⟨499, 499, 34, 34⟩, base_speed := 1, speed := 1 } } := by
  have hceil : ⌈(-1 : ℚ)⌉ = -1 := by
    rw [show ((-1 : ℚ)) = (((-1 : ℤ)) : ℚ) by push_cast; ring]
    exact Int.ceil_intCast (-1)
  unfold phaseMove Player.update HOD.update Game.start_level cexGame cexPlayer cexHod
    cexKeys ld0 mkPlayer mkHOD resolveX resolveY hodResolveX hodResolveY hodHeading
  norm_num [ratTrunc_eq, hceil]

/-- Witness for C4: the level starts with the gate on the player's start
tile; the very first frame clears the level with the 1000-point bonus. -/
theorem C4_gate_level_clear_witness :
    (runLevel ((cexGame ⟨0, 0, 40, 40⟩).start_level ld0) ([] ++ [Ev.frame cexKeys])).state
        = GState.LEVELCLEAR ∧
    (runLevel ((cexGame ⟨0, 0, 40, 40⟩).start_level ld0) ([] ++ [Ev.frame cexKeys])).level =
      (if (runLevel ((cexGame ⟨0, 0, 40, 40⟩).start_level ld0) []).level + 1 > MAX_LEVEL
       then MAX_LEVEL
       else (runLevel ((cexGame ⟨0, 0, 40, 40⟩).start_level ld0) []).level + 1) ∧
    (runLevel ((cexGame ⟨0, 0, 40, 40⟩).start_level ld0) ([] ++ [Ev.frame cexKeys])).player.score =
      (phaseCatch (phaseNotes (phaseMove
          (runLevel ((cexGame ⟨0, 0, 40, 40⟩).start_level ld0) []) cexKeys))).player.score +
        (if catchCount ((cexGame ⟨0, 0, 40, 40⟩).start_level ld0) ([] ++ [Ev.frame cexKeys]) = 0
         then 1000 else 500) :=
  C4_gate_level_clear (cexGame ⟨0, 0, 40, 40⟩) ld0 [] cexKeys rfl
    (by
      show Collides
        (phaseCatch (phaseNotes (phaseMove ((cexGame ⟨0, 0, 40, 40⟩).start_level ld0) cexKeys))).player.rect
        (phaseCatch (phaseNotes (phaseMove ((cexGame ⟨0, 0, 40, 40⟩).start_level ld0) cexKeys))).gate
      rw [phaseMove_w, phaseNotes_cex _ rfl, phaseCatch_nocollide _ (by decide)]
      decide)

/-! ### Grid cell lemmas -/

theorem getD_replicate {α : Type} (n k : ℕ) (a d : α) :
    (List.replicate n a).getD k d = if k < n then a else d := by
  induction n generalizing k with
  | zero => simp
  | succ m ih =>
    cases k with
    | zero => simp [List.replicate]
    | succ j =>
      simp only [List.replicate, List.getD_cons_succ, ih]
      by_cases h : j < m
      · rw [if_pos h, if_pos (by omega)]
      · rw [if_neg h, if_neg (by omega)]

theorem getD_set {α : Type} :
    ∀ (l : List α) (i j : ℕ) (a d : α),
      (l.set i a).getD j d = if j = i ∧ i < l.length then a else l.getD j d := by
  intro l
  induction l with
  | nil => intro i j a d; simp
  | cons b t ih =>
    intro i j a d
    cases i with
    | zero =>
      cases j with
      | zero => simp
      | succ j2 => simp
    | succ i2 =>
      cases j with
      | zero => simp
      | succ j2 =>
        simp only [List.set_cons_succ, List.getD_cons_succ, ih, List.length_cons]
        by_cases h : j2 = i2 ∧ i2 < t.length
        · rw [if_pos h, if_pos ⟨by omega, by omega⟩]
        · rw [if_neg h, if_neg (by omega)]

theorem getCell_replicate (cols rows : ℤ) (y x : ℤ) :
    getCell (List.replicate rows.toNat (List.replicate cols.toNat 1)) y x = 1 := by
  unfold getCell
  rw [getD_replicate]
  by_cases h : y.toNat < rows.toNat
  · rw [if_pos h, getD_replicate]
    by_cases h2 : x.toNat < cols.toNat
    · rw [if_pos h2]
    · rw [if_neg h2]
  · rw [if_neg h]
    simp

/-- Writes to a different (toNat-)cell never affect a read. -/
theorem getCell_setCell_ne (g : Grid) (y x y2 x2 : ℤ) (v : ℕ)
    (h : ¬ (y2.toNat = y.toNat ∧ x2.toNat = x.toNat)) :
    getCell (setCell g y x v) y2 x2 = getCell g y2 x2 := by
  unfold getCell setCell
  rw [getD_set]
  by_cases hy : y2.toNat = y.toNat ∧ y.toNat < g.length
  · rw [if_pos hy, getD_set, hy.1]
    rw [if_neg (by
      intro hcon
      exact h ⟨hy.1, hcon.1⟩)]
  · rw [if_neg hy]

/-- Reading back an in-range write. -/
theorem getCell_setCell_eq (g : Grid) (y x : ℤ) (v : ℕ)
    (hy : y.toNat < g.length) (hx : x.toNat < (g.getD y.toNat []).length) :
    getCell (setCell g y x v) y x = v := by
  unfold getCell setCell
  rw [getD_set, if_pos ⟨rfl, hy⟩, getD_set, if_pos ⟨rfl, hx⟩]

def gridWF (cols rows : ℤ) (g : Grid) : Prop :=
  g.length = rows.toNat ∧ ∀ row ∈ g, row.length = cols.toNat

theorem gridWF_replicate (cols rows : ℤ) :
    gridWF cols rows (List.replicate rows.toNat (List.replicate cols.toNat 1)) := by
  constructor
  · simp
  · intro row hrow
    rw [List.eq_of_mem_replicate hrow]
    simp

theorem gridWF_setCell (cols rows : ℤ) (g : Grid) (y x : ℤ) (v : ℕ)
    (h : gridWF cols rows g) : gridWF cols rows (setCell g y x v) := by
  obtain ⟨hlen, hrows⟩ := h
  by_cases hy : y.toNat < g.length
  · constructor
    · unfold setCell
      simp [hlen]
    · intro row hrow
      unfold setCell at hrow
      rcases List.mem_or_eq_of_mem_set hrow with hmem | heq
      · exact hrows row hmem
      · subst heq
        rw [List.length_set]
        refine hrows _ ?_
        rw [List.getD_eq_getElem g [] hy]
        exact List.getElem_mem hy
  · have hset : setCell g y x v = g := by
      unfold setCell
      exact List.set_eq_of_length_le (by omega)
    rw [hset]
    exact ⟨hlen, hrows⟩

/-! ### Claim C9: degenerate dimensions are not clamped — they fail -/

def shuffleId : ℕ → List (ℤ × ℤ) := fun _ => dirs

/-- C9 counterexample: requesting a 0×0 maze does not clamp to 3×3; the
odd-adjustment yields a 1×1 grid and the unguarded write `grid[1][1] = 0`
indexes out of bounds (modelled as `none`), so the degeneracy is surfaced
as a failure rather than recovered. -/
theorem C9_degenerate_cex : generate_maze shuffleId 0 0 = none := rfl

/-- C9 amended: `generate_maze` terminates for every requested dimension
pair, and succeeds (all accesses in range) exactly when both requested
dimensions are at least 2, so that the odd-adjusted dimensions are at
least 3; for degenerate requests (either dimension ≤ 1, hence ≤ 1 after
odd-adjustment) the unguarded `grid[1][1] = 0` raises IndexError
(modelled as `none`) — there is no 3×3 clamping. -/
theorem oddAdjust_two_le (n : ℤ) : 1 < (oddAdjust n).toNat ↔ 2 ≤ n := by
  unfold oddAdjust
  split_ifs <;> omega

theorem mazeCore_eq_ite (shuffle : ℕ → List (ℤ × ℤ)) (cols rows : ℤ) :
    mazeCore shuffle cols rows =
      if 1 < (oddAdjust rows).toNat ∧ 1 < (oddAdjust cols).toNat
      then some (carve shuffle (oddAdjust cols) (oddAdjust rows)
        ((oddAdjust rows).toNat * (oddAdjust cols).toNat)
        (setCell (List.replicate (oddAdjust rows).toNat
          (List.replicate (oddAdjust cols).toNat 1)) 1 1 0) 1 1 0).1
      else none := rfl

theorem mazeCore_isSome (shuffle : ℕ → List (ℤ × ℤ)) (cols rows : ℤ) :
    (mazeCore shuffle cols rows).isSome = true ↔ (2 ≤ cols ∧ 2 ≤ rows) := by
  rw [mazeCore_eq_ite]
  by_cases h : 1 < (oddAdjust rows).toNat ∧ 1 < (oddAdjust cols).toNat
  · rw [if_pos h]
    rw [oddAdjust_two_le, oddAdjust_two_le] at h
    simp only [Option.isSome_some, true_iff]
    exact ⟨h.2, h.1⟩
  · rw [if_neg h]
    rw [oddAdjust_two_le, oddAdjust_two_le] at h
    simp only [Option.isSome_none, Bool.false_eq_true, false_iff]
    intro hcon
    exact h ⟨hcon.2, hcon.1⟩

theorem C9_degeneracy_amended (shuffle : ℕ → List (ℤ × ℤ)) (cols rows : ℤ) :
    (generate_maze shuffle cols rows).isSome = true ↔ (2 ≤ cols ∧ 2 ≤ rows) := by
  rw [← mazeCore_isSome shuffle cols rows]
  unfold generate_maze
  rcases mazeCore shuffle cols rows with _ | g
  · rfl
  · rfl

/-! ### Maze geometry predicates

Positions are `(x, y)` pairs; `inb` is the carving interior, `isLat` the
lattice cells (odd column, odd row) visited by the DFS, `isConn` the
connector cells carved between two lattice cells, and `cellAdj` the
4-neighbour adjacency between grid cells. -/

def inb (cols rows : ℤ) (p : ℤ × ℤ) : Prop :=
  1 ≤ p.1 ∧ p.1 < cols - 1 ∧ 1 ≤ p.2 ∧ p.2 < rows - 1

def isLat (cols rows : ℤ) (p : ℤ × ℤ) : Prop :=
  inb cols rows p ∧ p.1 % 2 = 1 ∧ p.2 % 2 = 1

def isConn (cols rows : ℤ) (p : ℤ × ℤ) : Prop :=
  inb cols rows p ∧ ((p.1 % 2 = 1 ∧ p.2 % 2 = 0) ∨ (p.1 % 2 = 0 ∧ p.2 % 2 = 1))

def cellAdj (p q : ℤ × ℤ) : Prop :=
  (p.1 = q.1 ∧ (q.2 = p.2 + 1 ∨ p.2 = q.2 + 1)) ∨
  (p.2 = q.2 ∧ (q.1 = p.1 + 1 ∨ p.1 = q.1 + 1))

def isFloor (g : Grid) (p : ℤ × ℤ) : Prop := getCell g p.2 p.1 = 0

instance (cols rows : ℤ) (p : ℤ × ℤ) : Decidable (inb cols rows p) := by
  unfold inb; infer_instance

instance (cols rows : ℤ) (p : ℤ × ℤ) : Decidable (isLat cols rows p) := by
  unfold isLat; infer_instance

instance (cols rows : ℤ) (p : ℤ × ℤ) : Decidable (isConn cols rows p) := by
  unfold isConn; infer_instance

instance (p q : ℤ × ℤ) : Decidable (cellAdj p q) := by
  unfold cellAdj; infer_instance

instance (g : Grid) (p : ℤ × ℤ) : Decidable (isFloor g p) := by
  unfold isFloor; infer_instance

theorem cellAdj_symm {p q : ℤ × ℤ} (h : cellAdj p q) : cellAdj q p := by
  unfold cellAdj at h ⊢
  omega

theorem cellAdj_ne {p q : ℤ × ℤ} (h : cellAdj p q) : p ≠ q := by
  intro hcon
  subst hcon
  unfold cellAdj at h
  omega

/-- Every floor connector's two lattice endpoints are floor. -/
def connOK (cols rows : ℤ) (g : Grid) : Prop :=
  ∀ p : ℤ × ℤ, isFloor g p → isConn cols rows p →
    (p.1 % 2 = 0 → isFloor g (p.1 - 1, p.2) ∧ isFloor g (p.1 + 1, p.2)) ∧
    (p.2 % 2 = 0 → isFloor g (p.1, p.2 - 1) ∧ isFloor g (p.1, p.2 + 1))

def lattFinset (cols rows : ℤ) : Finset (ℤ × ℤ) :=
  (Finset.Icc 1 (cols - 2) ×ˢ Finset.Icc 1 (rows - 2)).filter
    (fun p => p.1 % 2 = 1 ∧ p.2 % 2 = 1)

theorem mem_lattFinset (cols rows : ℤ) (p : ℤ × ℤ) :
    p ∈ lattFinset cols rows ↔ isLat cols rows p := by
  unfold lattFinset isLat inb
  rw [Finset.mem_filter, Finset.mem_product, Finset.mem_Icc, Finset.mem_Icc]
  constructor
  · rintro ⟨⟨⟨a, b⟩, c, d⟩, e, f⟩
    exact ⟨⟨a, by omega, c, by omega⟩, e, f⟩
  · rintro ⟨⟨a, b, c, d⟩, e, f⟩
    exact ⟨⟨⟨a, by omega⟩, c, by omega⟩, e, f⟩

/-- Number of uncarved lattice cells; the decreasing measure of the DFS. -/
def lattWalls (cols rows : ℤ) (g : Grid) : ℕ :=
  ((lattFinset cols rows).filter (fun p => ¬ isFloor g p)).card

/-- Reading an order list, with an irrelevant default. -/
def Lget (L : List (ℤ × ℤ)) (i : ℕ) : ℤ × ℤ := L.getD i (0, 0)

/-- The carving invariant: the grid is well-formed with binary cells, `L`
lists the floor cells in carve order without repetition, every floor cell
is a lattice or connector cell of the interior, every floor connector has
floor endpoints, and every floor cell after the first has exactly one
earlier neighbour in carve order. -/
structure MazeInv (cols rows : ℤ) (g : Grid) (L : List (ℤ × ℤ)) : Prop where
  wf : gridWF cols rows g
  binary : ∀ y x : ℤ, getCell g y x = 0 ∨ getCell g y x = 1
  mem_iff : ∀ p : ℤ × ℤ, p ∈ L ↔ isFloor g p
  nodup : L.Nodup
  shape : ∀ p : ℤ × ℤ, isFloor g p → isLat cols rows p ∨ isConn cols rows p
  conn : connOK cols rows g
  uniq : ∀ i : ℕ, 0 < i → i < L.length →
    ∃! j : ℕ, j < i ∧ cellAdj (Lget L j) (Lget L i)

/-! ### Effect of the two carving writes on the floor set -/

theorem toNat_pair_inj {p q : ℤ × ℤ} (h1 : 1 ≤ q.1) (h2 : 1 ≤ q.2)
    (h : p.2.toNat = q.2.toNat ∧ p.1.toNat = q.1.toNat) : p = q := by
  have hx : p.1 = q.1 := by omega
  have hy : p.2 = q.2 := by omega
  exact Prod.ext hx hy

theorem getCell_congr (g : Grid) {y x y2 x2 : ℤ}
    (hy : y.toNat = y2.toNat) (hx : x.toNat = x2.toNat) :
    getCell g y x = getCell g y2 x2 := by
  unfold getCell
  rw [hy, hx]

theorem isFloor_setCell (cols rows : ℤ) (g : Grid) (hwf : gridWF cols rows g)
    (q : ℤ × ℤ) (h1 : 1 ≤ q.1) (h2 : q.1 < cols) (h3 : 1 ≤ q.2) (h4 : q.2 < rows)
    (p : ℤ × ℤ) :
    isFloor (setCell g q.2 q.1 0) p ↔ (p = q ∨ isFloor g p) := by
  have hylen : q.2.toNat < g.length := by
    rw [hwf.1]; omega
  have hrowmem : g.getD q.2.toNat [] ∈ g := by
    rw [List.getD_eq_getElem g [] hylen]
    exact List.getElem_mem hylen
  have hxlen : q.1.toNat < (g.getD q.2.toNat []).length := by
    rw [hwf.2 _ hrowmem]; omega
  constructor
  · intro hf
    by_cases hpq : p.2.toNat = q.2.toNat ∧ p.1.toNat = q.1.toNat
    · exact Or.inl (toNat_pair_inj h1 h3 hpq)
    · right
      unfold isFloor at hf ⊢
      rw [getCell_setCell_ne g q.2 q.1 p.2 p.1 0 hpq] at hf
      exact hf
  · intro h
    rcases h with rfl | hf
    · unfold isFloor
      exact getCell_setCell_eq g p.2 p.1 0 hylen hxlen
    · by_cases hpq : p.2.toNat = q.2.toNat ∧ p.1.toNat = q.1.toNat
      · unfold isFloor
        rw [getCell_congr _ hpq.1 hpq.2]
        exact getCell_setCell_eq g q.2 q.1 0 hylen hxlen
      · unfold isFloor at hf ⊢
        rw [getCell_setCell_ne g q.2 q.1 p.2 p.1 0 hpq]
        exact hf

theorem isFloor_extend (cols rows : ℤ) (g : Grid) (hwf : gridWF cols rows g)
    (c n : ℤ × ℤ)
    (hc1 : 1 ≤ c.1) (hc2 : c.1 < cols) (hc3 : 1 ≤ c.2) (hc4 : c.2 < rows)
    (hn1 : 1 ≤ n.1) (hn2 : n.1 < cols) (hn3 : 1 ≤ n.2) (hn4 : n.2 < rows)
    (p : ℤ × ℤ) :
    isFloor (setCell (setCell g c.2 c.1 0) n.2 n.1 0) p ↔
      (p = n ∨ p = c ∨ isFloor g p) := by
  rw [isFloor_setCell cols rows (setCell g c.2 c.1 0)
      (gridWF_setCell cols rows g c.2 c.1 0 hwf) n hn1 hn2 hn3 hn4 p,
    isFloor_setCell cols rows g hwf c hc1 hc2 hc3 hc4 p]

/-! ### Order-list index helpers -/

theorem Lget_append_lt (L M : List (ℤ × ℤ)) (j : ℕ) (h : j < L.length) :
    Lget (L ++ M) j = Lget L j :=
  List.getD_append L M (0, 0) j h

theorem Lget_append_ge (L M : List (ℤ × ℤ)) (j : ℕ) (h : L.length ≤ j) :
    Lget (L ++ M) j = Lget M (j - L.length) := by
  unfold Lget
  rw [List.getD_eq_getElem?_getD, List.getElem?_append_right h,
    ← List.getD_eq_getElem?_getD]

theorem Lget_append_two_left (L : List (ℤ × ℤ)) (c n : ℤ × ℤ) :
    Lget (L ++ [c, n]) L.length = c := by
  rw [Lget_append_ge L [c, n] L.length (le_refl _), Nat.sub_self]
  rfl

theorem Lget_append_two_right (L : List (ℤ × ℤ)) (c n : ℤ × ℤ) :
    Lget (L ++ [c, n]) (L.length + 1) = n := by
  rw [Lget_append_ge L [c, n] (L.length + 1) (by omega), Nat.add_sub_cancel_left]
  rfl

theorem Lget_mem (L : List (ℤ × ℤ)) (j : ℕ) (h : j < L.length) : Lget L j ∈ L := by
  unfold Lget
  rw [List.getD_eq_getElem L (0, 0) h]
  exact List.getElem_mem h

theorem mem_index (L : List (ℤ × ℤ)) (q : ℤ × ℤ) (hq : q ∈ L) :
    ∃ j, j < L.length ∧ Lget L j = q := by
  obtain ⟨i, hi, he⟩ := List.mem_iff_getElem.1 hq
  refine ⟨i, hi, ?_⟩
  unfold Lget
  rw [List.getD_eq_getElem L (0, 0) hi]
  exact he

theorem Lget_inj (L : List (ℤ × ℤ)) (hn : L.Nodup) (i j : ℕ)
    (hi : i < L.length) (hj : j < L.length) (he : Lget L i = Lget L j) : i = j := by
  unfold Lget at he
  rw [List.getD_eq_getElem L (0, 0) hi, List.getD_eq_getElem L (0, 0) hj] at he
  exact (List.Nodup.getElem_inj_iff hn).1 he

/-! ### Wall-count bookkeeping for one carve operation -/

theorem lattWalls_mono (cols rows : ℤ) (g g2 : Grid)
    (h : ∀ p, isFloor g p → isFloor g2 p) :
    lattWalls cols rows g2 ≤ lattWalls cols rows g := by
  unfold lattWalls
  apply Finset.card_le_card
  intro p hp
  rw [Finset.mem_filter] at hp ⊢
  exact ⟨hp.1, fun hf => hp.2 (h p hf)⟩

theorem lattWalls_extend (cols rows : ℤ) (g : Grid) (hwf : gridWF cols rows g)
    (c n : ℤ × ℤ)
    (hc1 : 1 ≤ c.1) (hc2 : c.1 < cols) (hc3 : 1 ≤ c.2) (hc4 : c.2 < rows)
    (hn1 : 1 ≤ n.1) (hn2 : n.1 < cols) (hn3 : 1 ≤ n.2) (hn4 : n.2 < rows)
    (hcpar : ¬ (c.1 % 2 = 1 ∧ c.2 % 2 = 1)) (hnlat : isLat cols rows n)
    (hnwall : ¬ isFloor g n) :
    lattWalls cols rows (setCell (setCell g c.2 c.1 0) n.2 n.1 0)
      = lattWalls cols rows g - 1 ∧ 1 ≤ lattWalls cols rows g := by
  have hfl := isFloor_extend cols rows g hwf c n hc1 hc2 hc3 hc4 hn1 hn2 hn3 hn4
  have hset : (lattFinset cols rows).filter
        (fun p => ¬ isFloor (setCell (setCell g c.2 c.1 0) n.2 n.1 0) p)
      = ((lattFinset cols rows).filter (fun p => ¬ isFloor g p)).erase n := by
    ext p
    rw [Finset.mem_erase, Finset.mem_filter, Finset.mem_filter, hfl p]
    constructor
    · rintro ⟨hlat, hnf⟩
      push_neg at hnf
      exact ⟨hnf.1, hlat, hnf.2.2⟩
    · rintro ⟨hne, hlat, hnf⟩
      refine ⟨hlat, ?_⟩
      rintro (rfl | rfl | hf)
      · exact hne rfl
      · have := ((mem_lattFinset cols rows p).1 hlat).2
        exact hcpar this
      · exact hnf hf
  have hmem : n ∈ (lattFinset cols rows).filter (fun p => ¬ isFloor g p) :=
    Finset.mem_filter.2 ⟨(mem_lattFinset cols rows n).2 hnlat, hnwall⟩
  constructor
  · unfold lattWalls
    rw [hset, Finset.card_erase_of_mem hmem]
  · unfold lattWalls
    have := Finset.card_pos.2 ⟨n, hmem⟩
    omega

/-- A cell adjacent to a lattice-parity cell is a connector-parity cell
having that cell as one of its two endpoints. -/
theorem lat_nbr {n : ℤ × ℤ} (hn1 : n.1 % 2 = 1) (hn2 : n.2 % 2 = 1)
    (q : ℤ × ℤ) (h : cellAdj q n) :
    (q.1 % 2 = 0 ∧ q.2 % 2 = 1 ∧ ((q.1 - 1, q.2) = n ∨ (q.1 + 1, q.2) = n)) ∨
    (q.1 % 2 = 1 ∧ q.2 % 2 = 0 ∧ ((q.1, q.2 - 1) = n ∨ (q.1, q.2 + 1) = n)) := by
  rcases h with ⟨h1, h2 | h2⟩ | ⟨h1, h2 | h2⟩
  · exact Or.inr ⟨by omega, by omega, Or.inr (Prod.ext_iff.2 ⟨by omega, by omega⟩)⟩
  · exact Or.inr ⟨by omega, by omega, Or.inl (Prod.ext_iff.2 ⟨by omega, by omega⟩)⟩
  · exact Or.inl ⟨by omega, by omega, Or.inr (Prod.ext_iff.2 ⟨by omega, by omega⟩)⟩
  · exact Or.inl ⟨by omega, by omega, Or.inl (Prod.ext_iff.2 ⟨by omega, by omega⟩)⟩

set_option maxHeartbeats 1600000 in
/-- The carving invariant is preserved by one successful carve operation:
current lattice floor cell `a`, connector `c`, previously-wall target
lattice cell `n`; the geometric relations between them are hypotheses
discharged per direction by the caller. -/
theorem MazeInv.extend_core (cols rows : ℤ) (g : Grid) (L : List (ℤ × ℤ))
    (inv : MazeInv cols rows g L) (a c n : ℤ × ℤ)
    (hafl : isFloor g a)
    (hcinb : inb cols rows c) (hninb : inb cols rows n)
    (hnpar : n.1 % 2 = 1 ∧ n.2 % 2 = 1)
    (hcpar : (c.1 % 2 = 1 ∧ c.2 % 2 = 0) ∨ (c.1 % 2 = 0 ∧ c.2 % 2 = 1))
    (hadj_ac : cellAdj a c) (hadj_cn : cellAdj c n)
    (hendsX : c.1 % 2 = 0 →
      ((c.1 - 1, c.2) = a ∧ (c.1 + 1, c.2) = n) ∨ ((c.1 - 1, c.2) = n ∧ (c.1 + 1, c.2) = a))
    (hendsY : c.2 % 2 = 0 →
      ((c.1, c.2 - 1) = a ∧ (c.1, c.2 + 1) = n) ∨ ((c.1, c.2 - 1) = n ∧ (c.1, c.2 + 1) = a))
    (hnbrC : ∀ q : ℤ × ℤ, cellAdj q c → q = a ∨ q = n ∨ (q.1 % 2 = 0 ∧ q.2 % 2 = 0))
    (hwall : ¬ isFloor g n) :
    MazeInv cols rows (setCell (setCell g c.2 c.1 0) n.2 n.1 0) (L ++ [c, n]) := by
  obtain ⟨hc1, hc2, hc3, hc4⟩ := hcinb
  obtain ⟨hn1, hn2, hn3, hn4⟩ := hninb
  have hfl := isFloor_extend cols rows g inv.wf c n hc1 (by omega) hc3 (by omega)
    hn1 (by omega) hn3 (by omega)
  have hcw : ¬ isFloor g c := by
    intro hf
    rcases inv.shape c hf with hlat | hconn
    · rcases hcpar with ⟨_, h⟩ | ⟨h, _⟩
      · exact absurd hlat.2.2 (by omega)
      · exact absurd hlat.2.1 (by omega)
    · have hcc := inv.conn c hf hconn
      rcases hcpar with ⟨hodd, heven⟩ | ⟨heven, hodd⟩
      · rcases hendsY heven with ⟨he1, he2⟩ | ⟨he1, he2⟩
        · exact hwall (he2 ▸ (hcc.2 heven).2)
        · exact hwall (he1 ▸ (hcc.2 heven).1)
      · rcases hendsX heven with ⟨he1, he2⟩ | ⟨he1, he2⟩
        · exact hwall (he2 ▸ (hcc.1 heven).2)
        · exact hwall (he1 ▸ (hcc.1 heven).1)
  have hcn : c ≠ n := by
    intro h
    rw [h] at hcpar
    rcases hcpar with ⟨_, h2⟩ | ⟨h2, _⟩
    · omega
    · omega
  have hmemA : a ∈ L := (inv.mem_iff a).2 hafl
  have hnotC : c ∉ L := fun h => hcw ((inv.mem_iff c).1 h)
  have hnotN : n ∉ L := fun h => hwall ((inv.mem_iff n).1 h)
  refine ⟨?_, ?_, ?_, ?_, ?_, ?_, ?_⟩
  · exact gridWF_setCell cols rows _ _ _ _ (gridWF_setCell cols rows g _ _ _ inv.wf)
  · intro y x
    by_cases hyn : y.toNat = n.2.toNat ∧ x.toNat = n.1.toNat
    · left
      have := hfl (x, y)
      rw [getCell_congr _ hyn.1 hyn.2]
      exact (hfl n).2 (Or.inl rfl)
    · rw [getCell_setCell_ne _ _ _ _ _ _ hyn]
      by_cases hyc : y.toNat = c.2.toNat ∧ x.toNat = c.1.toNat
      · left
        rw [getCell_congr _ hyc.1 hyc.2]
        have h2 := (isFloor_setCell cols rows g inv.wf c hc1 (by omega) hc3 (by omega) c).2
          (Or.inl rfl)
        exact h2
      · rw [getCell_setCell_ne _ _ _ _ _ _ hyc]
        exact inv.binary y x
  · intro p
    rw [hfl p]
    simp only [List.mem_append, List.mem_cons, List.mem_singleton, inv.mem_iff p]
    tauto
  · rw [List.nodup_append]
    refine ⟨inv.nodup, ?_, ?_⟩
    · simp [hcn]
    · intro p hp
      simp only [List.mem_cons, List.mem_singleton]
      rintro (rfl | rfl | h)
      · exact hnotC hp
      · exact hnotN hp
      · exact absurd h (List.not_mem_nil p)
  · intro p hf
    rcases (hfl p).1 hf with rfl | rfl | hold
    · exact Or.inl ⟨⟨hn1, by omega, hn3, by omega⟩, hnpar⟩
    · exact Or.inr ⟨⟨hc1, by omega, hc3, by omega⟩, hcpar⟩
    · rcases inv.shape p hold with h | h
      · exact Or.inl h
      · exact Or.inr h
  · intro p hf hconn
    rcases (hfl p).1 hf with rfl | rfl | hold
    · exfalso
      rcases hconn.2 with ⟨_, h⟩ | ⟨h, _⟩
      · omega
      · omega
    · constructor
      · intro heven
        rcases hendsX heven with ⟨he1, he2⟩ | ⟨he1, he2⟩
        · exact ⟨he1 ▸ (hfl a).2 (Or.inr (Or.inr hafl)), he2 ▸ (hfl n).2 (Or.inl rfl)⟩
        · exact ⟨he1 ▸ (hfl n).2 (Or.inl rfl), he2 ▸ (hfl a).2 (Or.inr (Or.inr hafl))⟩
      · intro heven
        rcases hendsY heven with ⟨he1, he2⟩ | ⟨he1, he2⟩
        · exact ⟨he1 ▸ (hfl a).2 (Or.inr (Or.inr hafl)), he2 ▸ (hfl n).2 (Or.inl rfl)⟩
        · exact ⟨he1 ▸ (hfl n).2 (Or.inl rfl), he2 ▸ (hfl a).2 (Or.inr (Or.inr hafl))⟩
    · have hc := inv.conn p hold hconn
      constructor
      · intro heven
        exact ⟨(hfl _).2 (Or.inr (Or.inr (hc.1 heven).1)),
          (hfl _).2 (Or.inr (Or.inr (hc.1 heven).2))⟩
      · intro heven
        exact ⟨(hfl _).2 (Or.inr (Or.inr (hc.2 heven).1)),
          (hfl _).2 (Or.inr (Or.inr (hc.2 heven).2))⟩
  · intro i hi0 hilen
    rw [List.length_append, List.length_cons, List.length_cons, List.length_nil] at hilen
    rcases lt_trichotomy i L.length with hA | hB | hC
    · obtain ⟨j, ⟨hjlt, hjadj⟩, hjun⟩ := inv.uniq i hi0 hA
      refine ⟨j, ⟨hjlt, ?_⟩, ?_⟩
      · rw [Lget_append_lt _ _ _ (lt_trans hjlt hA), Lget_append_lt _ _ _ hA]
        exact hjadj
      · intro j2 hj2
        refine hjun j2 ⟨hj2.1, ?_⟩
        have := hj2.2
        rw [Lget_append_lt _ _ _ (lt_trans hj2.1 hA), Lget_append_lt _ _ _ hA] at this
        exact this
    · subst hB
      obtain ⟨j0, hj0lt, hj0eq⟩ := mem_index L a hmemA
      refine ⟨j0, ⟨hj0lt, ?_⟩, ?_⟩
      · rw [Lget_append_lt _ _ _ hj0lt, Lget_append_two_left, hj0eq]
        exact hadj_ac
      · intro j2 ⟨hj2lt, hj2adj⟩
        rw [Lget_append_lt _ _ _ hj2lt, Lget_append_two_left] at hj2adj
        have hqmem := Lget_mem L j2 hj2lt
        have hqfl := (inv.mem_iff _).1 hqmem
        rcases hnbrC _ hj2adj with hq | hq | hq
        · apply Lget_inj L inv.nodup j2 j0 hj2lt hj0lt
          rw [hq, hj0eq]
        · exfalso
          rw [hq] at hqfl
          exact hwall hqfl
        · exfalso
          rcases inv.shape _ hqfl with hl | hc
          · have := hl.2.1
            omega
          · rcases hc.2 with ⟨h1, _⟩ | ⟨_, h2⟩
            · omega
            · omega
    · have hi : i = L.length + 1 := by omega
      subst hi
      refine ⟨L.length, ⟨by omega, ?_⟩, ?_⟩
      · rw [Lget_append_two_left, Lget_append_two_right]
        exact hadj_cn
      · intro j2 ⟨hj2lt, hj2adj⟩
        rw [Lget_append_two_right] at hj2adj
        rcases lt_or_eq_of_le (Nat.lt_succ_iff.1 hj2lt) with hj2 | hj2
        · exfalso
          rw [Lget_append_lt _ _ _ hj2] at hj2adj
          have hqmem := Lget_mem L j2 hj2
          have hqfl := (inv.mem_iff _).1 hqmem
          rcases lat_nbr hnpar.1 hnpar.2 _ hj2adj with ⟨hp1, hp2, hend⟩ | ⟨hp1, hp2, hend⟩
          · rcases inv.shape _ hqfl with hl | hc
            · have := hl.2.1
              omega
            · have hcc := (inv.conn _ hqfl hc).1 hp1
              rcases hend with he | he
              · exact hwall (he ▸ hcc.1)
              · exact hwall (he ▸ hcc.2)
          · rcases inv.shape _ hqfl with hl | hc
            · have := hl.2.2
              omega
            · have hcc := (inv.conn _ hqfl hc).2 hp2
              rcases hend with he | he
              · exact hwall (he ▸ hcc.1)
              · exact hwall (he ▸ hcc.2)
        · exact hj2

/-! ### Unfolding equations for the carving recursion -/

theorem carveGo_nil (shuffle : ℕ → List (ℤ × ℤ)) (cols rows : ℤ) (f : ℕ)
    (g : Grid) (x y : ℤ) (s : ℕ) :
    carveGo shuffle cols rows f g x y [] s = (g, s) := by
  rw [carveGo]

theorem carveGo_cons (shuffle : ℕ → List (ℤ × ℤ)) (cols rows : ℤ) (f : ℕ)
    (g : Grid) (x y : ℤ) (d : ℤ × ℤ) (rest : List (ℤ × ℤ)) (s : ℕ) :
    carveGo shuffle cols rows f g x y (d :: rest) s =
      if 1 ≤ x + d.1 ∧ x + d.1 < cols - 1 ∧ 1 ≤ y + d.2 ∧ y + d.2 < rows - 1 ∧
          getCell g (y + d.2) (x + d.1) = 1 then
        carveGo shuffle cols rows f
          (carve shuffle cols rows f
            (setCell (setCell g (y + d.2 / 2) (x + d.1 / 2) 0) (y + d.2) (x + d.1) 0)
            (x + d.1) (y + d.2) s).1
          x y rest
          (carve shuffle cols rows f
            (setCell (setCell g (y + d.2 / 2) (x + d.1 / 2) 0) (y + d.2) (x + d.1) 0)
            (x + d.1) (y + d.2) s).2
      else carveGo shuffle cols rows f g x y rest s := by
  rw [carveGo]

theorem carve_zero (shuffle : ℕ → List (ℤ × ℤ)) (cols rows : ℤ)
    (g : Grid) (x y : ℤ) (s : ℕ) :
    carve shuffle cols rows 0 g x y s = (g, s) := by
  rw [carve]

theorem carve_succ (shuffle : ℕ → List (ℤ × ℤ)) (cols rows : ℤ) (f : ℕ)
    (g : Grid) (x y : ℤ) (s : ℕ) :
    carve shuffle cols rows (f + 1) g x y s =
      carveGo shuffle cols rows f g x y (shuffle s) (s + 1) := by
  rw [carve]

/-! ### Odd-adjustment arithmetic and write no-ops -/

theorem oddAdjust_odd (n : ℤ) : oddAdjust n % 2 = 1 := by
  unfold oddAdjust
  by_cases h : n % 2 = 0
  · rw [if_pos h]; omega
  · rw [if_neg h]; omega

theorem oddAdjust_ge (n : ℤ) (h : 2 ≤ n) : 3 ≤ oddAdjust n := by
  unfold oddAdjust
  by_cases h2 : n % 2 = 0
  · rw [if_pos h2]; omega
  · rw [if_neg h2]; omega

theorem set_getD_self {α : Type} : ∀ (l : List α) (i : ℕ) (d : α),
    l.set i (l.getD i d) = l := by
  intro l
  induction l with
  | nil => intro i d; rfl
  | cons a t ih =>
    intro i d
    cases i with
    | zero => rfl
    | succ j => simp only [List.getD_cons_succ, List.set_cons_succ, ih]

theorem setCell_noop (g : Grid) (y x : ℤ) (v : ℕ)
    (h : getCell g y x = v) : setCell g y x v = g := by
  unfold getCell at h
  unfold setCell
  rw [← h, set_getD_self, set_getD_self]

/-! ### Global bounds on the uncarved-lattice count -/

theorem lattWalls_le_total (cols rows : ℤ) (g : Grid) :
    lattWalls cols rows g ≤ rows.toNat * cols.toNat := by
  unfold lattWalls
  have h1 : ((lattFinset cols rows).filter (fun p => ¬ isFloor g p)).card
      ≤ (lattFinset cols rows).card := Finset.card_filter_le _ _
  have h2 : (lattFinset cols rows).card
      ≤ ((Finset.Icc (1:ℤ) (cols - 2)) ×ˢ (Finset.Icc (1:ℤ) (rows - 2))).card := by
    unfold lattFinset
    exact Finset.card_filter_le _ _
  rw [Finset.card_product, Int.card_Icc, Int.card_Icc] at h2
  have h3 : (cols - 2 + 1 - 1).toNat * (rows - 2 + 1 - 1).toNat
      ≤ cols.toNat * rows.toNat :=
    Nat.mul_le_mul (by omega) (by omega)
  calc ((lattFinset cols rows).filter (fun p => ¬ isFloor g p)).card
      ≤ (cols - 2 + 1 - 1).toNat * (rows - 2 + 1 - 1).toNat := le_trans h1 h2
    _ ≤ cols.toNat * rows.toNat := h3
    _ = rows.toNat * cols.toNat := Nat.mul_comm _ _

theorem lattWalls_eq_zero (cols rows : ℤ) (g : Grid)
    (h : lattWalls cols rows g = 0) :
    ∀ p : ℤ × ℤ, isLat cols rows p → isFloor g p := by
  intro p hp
  by_contra hnf
  have hmem : p ∈ (lattFinset cols rows).filter (fun p => ¬ isFloor g p) :=
    Finset.mem_filter.2 ⟨(mem_lattFinset cols rows p).2 hp, hnf⟩
  unfold lattWalls at h
  rw [Finset.card_eq_zero] at h
  rw [h] at hmem
  exact absurd hmem (Finset.not_mem_empty p)

/-- One successful carve step of `carveGo` in direction `d ∈ dirs` from an
odd-parity floor cell `(x, y)`: the connector `(x + d.1/2, y + d.2/2)` and
target `(x + d.1, y + d.2)` are carved, the invariant extends by those two
cells in order, the uncarved-lattice count drops by exactly one, and the
floor set grows by exactly those two cells. -/
theorem MazeInv.extend_dir (cols rows : ℤ) (g : Grid) (L : List (ℤ × ℤ))
    (inv : MazeInv cols rows g L) (x y : ℤ) (d : ℤ × ℤ) (hd : d ∈ dirs)
    (hx : x % 2 = 1) (hy : y % 2 = 1)
    (hafl : isFloor g (x, y))
    (hbds : 1 ≤ x + d.1 ∧ x + d.1 < cols - 1 ∧ 1 ≤ y + d.2 ∧ y + d.2 < rows - 1)
    (hwall : getCell g (y + d.2) (x + d.1) = 1) :
    MazeInv cols rows
      (setCell (setCell g (y + d.2 / 2) (x + d.1 / 2) 0) (y + d.2) (x + d.1) 0)
      (L ++ [(x + d.1 / 2, y + d.2 / 2), (x + d.1, y + d.2)]) ∧
    lattWalls cols rows
      (setCell (setCell g (y + d.2 / 2) (x + d.1 / 2) 0) (y + d.2) (x + d.1) 0)
      = lattWalls cols rows g - 1 ∧
    1 ≤ lattWalls cols rows g ∧
    (∀ p : ℤ × ℤ,
      isFloor (setCell (setCell g (y + d.2 / 2) (x + d.1 / 2) 0)
        (y + d.2) (x + d.1) 0) p ↔
      (p = (x + d.1, y + d.2) ∨ p = (x + d.1 / 2, y + d.2 / 2) ∨ isFloor g p)) ∧
    ¬ ((x + d.1 / 2) % 2 = 1 ∧ (y + d.2 / 2) % 2 = 1) := by
  have hxy : 1 ≤ x ∧ x < cols - 1 ∧ 1 ≤ y ∧ y < rows - 1 := by
    rcases inv.shape (x, y) hafl with h | h
    · exact h.1
    · exact h.1
  obtain ⟨hx1, hx2, hy1, hy2⟩ := hxy
  simp only [dirs, List.mem_cons, List.not_mem_nil, or_false] at hd
  rcases hd with rfl | rfl | rfl | rfl
  · -- d = (2, 0)
    simp only [show ((2:ℤ), (0:ℤ)).1 = 2 from rfl, show ((2:ℤ), (0:ℤ)).2 = 0 from rfl,
      show (2:ℤ) / 2 = 1 from rfl, show (0:ℤ) / 2 = 0 from rfl, add_zero] at hbds hwall ⊢
    obtain ⟨hb1, hb2, hb3, hb4⟩ := hbds
    have hnw : ¬ isFloor g (x + 2, y) := by
      intro hf
      have hf2 : getCell g y (x + 2) = 0 := hf
      omega
    have hcinb : inb cols rows (x + 1, y) :=
      show 1 ≤ x + 1 ∧ x + 1 < cols - 1 ∧ 1 ≤ y ∧ y < rows - 1 from
        ⟨by omega, by omega, by omega, by omega⟩
    have hninb : inb cols rows (x + 2, y) :=
      show 1 ≤ x + 2 ∧ x + 2 < cols - 1 ∧ 1 ≤ y ∧ y < rows - 1 from
        ⟨hb1, hb2, hy1, hy2⟩
    have hnpar2 : (x + 2) % 2 = 1 ∧ y % 2 = 1 := ⟨by omega, hy⟩
    have hcpar2 : ((x + 1) % 2 = 1 ∧ y % 2 = 0) ∨ ((x + 1) % 2 = 0 ∧ y % 2 = 1) :=
      Or.inr ⟨by omega, hy⟩
    have hadj1 : cellAdj (x, y) (x + 1, y) := Or.inr ⟨rfl, Or.inl rfl⟩
    have hadj2 : cellAdj (x + 1, y) (x + 2, y) :=
      Or.inr ⟨rfl, Or.inl (show x + 2 = x + 1 + 1 by ring)⟩
    have hendsX1 : (x + 1) % 2 = 0 →
        ((x + 1 - 1, y) = (x, y) ∧ (x + 1 + 1, y) = (x + 2, y)) ∨
        ((x + 1 - 1, y) = (x + 2, y) ∧ (x + 1 + 1, y) = (x, y)) := by
      intro _
      exact Or.inl ⟨Prod.ext_iff.2 ⟨show x + 1 - 1 = x by omega, rfl⟩,
        Prod.ext_iff.2 ⟨show x + 1 + 1 = x + 2 by omega, rfl⟩⟩
    have hendsY1 : y % 2 = 0 →
        ((x + 1, y - 1) = (x, y) ∧ (x + 1, y + 1) = (x + 2, y)) ∨
        ((x + 1, y - 1) = (x + 2, y) ∧ (x + 1, y + 1) = (x, y)) :=
      fun h => absurd hy (by omega)
    have hnbr : ∀ q : ℤ × ℤ, cellAdj q (x + 1, y) →
        q = (x, y) ∨ q = (x + 2, y) ∨ (q.1 % 2 = 0 ∧ q.2 % 2 = 0) := by
      intro q hq
      have hq2 : (q.1 = x + 1 ∧ (y = q.2 + 1 ∨ q.2 = y + 1)) ∨
          (q.2 = y ∧ (x + 1 = q.1 + 1 ∨ q.1 = x + 1 + 1)) := hq
      rcases hq2 with ⟨h1, h2 | h2⟩ | ⟨h1, h2 | h2⟩
      · exact Or.inr (Or.inr ⟨by omega, by omega⟩)
      · exact Or.inr (Or.inr ⟨by omega, by omega⟩)
      · exact Or.inl (Prod.ext_iff.2 ⟨show q.1 = x by omega, show q.2 = y by omega⟩)
      · exact Or.inr (Or.inl (Prod.ext_iff.2
          ⟨show q.1 = x + 2 by omega, show q.2 = y by omega⟩))
    obtain ⟨hw1, hw2⟩ := lattWalls_extend cols rows g inv.wf (x + 1, y) (x + 2, y)
      (show (1:ℤ) ≤ x + 1 by omega) (show x + 1 < cols by omega)
      (show (1:ℤ) ≤ y by omega) (show y < rows by omega)
      (show (1:ℤ) ≤ x + 2 by omega) (show x + 2 < cols by omega)
      (show (1:ℤ) ≤ y by omega) (show y < rows by omega)
      (show ¬ ((x + 1) % 2 = 1 ∧ y % 2 = 1) by omega)
      (show (1 ≤ x + 2 ∧ x + 2 < cols - 1 ∧ 1 ≤ y ∧ y < rows - 1) ∧
        (x + 2) % 2 = 1 ∧ y % 2 = 1 from ⟨⟨hb1, hb2, hy1, hy2⟩, by omega, hy⟩) hnw
    have hiff := isFloor_extend cols rows g inv.wf (x + 1, y) (x + 2, y)
      (show (1:ℤ) ≤ x + 1 by omega) (show x + 1 < cols by omega)
      (show (1:ℤ) ≤ y by omega) (show y < rows by omega)
      (show (1:ℤ) ≤ x + 2 by omega) (show x + 2 < cols by omega)
      (show (1:ℤ) ≤ y by omega) (show y < rows by omega)
    exact ⟨MazeInv.extend_core cols rows g L inv (x, y) (x + 1, y) (x + 2, y) hafl
      hcinb hninb hnpar2 hcpar2 hadj1 hadj2 hendsX1 hendsY1 hnbr hnw,
      hw1, hw2, hiff, show ¬ ((x + 1) % 2 = 1 ∧ y % 2 = 1) by omega⟩
  · -- d = (-2, 0)
    simp only [show ((-2:ℤ), (0:ℤ)).1 = -2 from rfl, show ((-2:ℤ), (0:ℤ)).2 = 0 from rfl,
      show (-2:ℤ) / 2 = -1 from rfl, show (0:ℤ) / 2 = 0 from rfl, add_zero,
      show x + (-2:ℤ) = x - 2 from rfl, show x + (-1:ℤ) = x - 1 from rfl] at hbds hwall ⊢
    obtain ⟨hb1, hb2, hb3, hb4⟩ := hbds
    have hnw : ¬ isFloor g (x - 2, y) := by
      intro hf
      have hf2 : getCell g y (x - 2) = 0 := hf
      omega
    have hcinb : inb cols rows (x - 1, y) :=
      show 1 ≤ x - 1 ∧ x - 1 < cols - 1 ∧ 1 ≤ y ∧ y < rows - 1 from
        ⟨by omega, by omega, by omega, by omega⟩
    have hninb : inb cols rows (x - 2, y) :=
      show 1 ≤ x - 2 ∧ x - 2 < cols - 1 ∧ 1 ≤ y ∧ y < rows - 1 from
        ⟨by omega, by omega, by omega, by omega⟩
    have hnpar2 : (x - 2) % 2 = 1 ∧ y % 2 = 1 := ⟨by omega, hy⟩
    have hcpar2 : ((x - 1) % 2 = 1 ∧ y % 2 = 0) ∨ ((x - 1) % 2 = 0 ∧ y % 2 = 1) :=
      Or.inr ⟨by omega, hy⟩
    have hadj1 : cellAdj (x, y) (x - 1, y) :=
      Or.inr ⟨rfl, Or.inr (show x = x - 1 + 1 by ring)⟩
    have hadj2 : cellAdj (x - 1, y) (x - 2, y) :=
      Or.inr ⟨rfl, Or.inr (show x - 1 = x - 2 + 1 by ring)⟩
    have hendsX1 : (x - 1) % 2 = 0 →
        ((x - 1 - 1, y) = (x, y) ∧ (x - 1 + 1, y) = (x - 2, y)) ∨
        ((x - 1 - 1, y) = (x - 2, y) ∧ (x - 1 + 1, y) = (x, y)) := by
      intro _
      exact Or.inr ⟨Prod.ext_iff.2 ⟨show x - 1 - 1 = x - 2 by omega, rfl⟩,
        Prod.ext_iff.2 ⟨show x - 1 + 1 = x by omega, rfl⟩⟩
    have hendsY1 : y % 2 = 0 →
        ((x - 1, y - 1) = (x, y) ∧ (x - 1, y + 1) = (x - 2, y)) ∨
        ((x - 1, y - 1) = (x - 2, y) ∧ (x - 1, y + 1) = (x, y)) :=
      fun h => absurd hy (by omega)
    have hnbr : ∀ q : ℤ × ℤ, cellAdj q (x - 1, y) →
        q = (x, y) ∨ q = (x - 2, y) ∨ (q.1 % 2 = 0 ∧ q.2 % 2 = 0) := by
      intro q hq
      have hq2 : (q.1 = x - 1 ∧ (y = q.2 + 1 ∨ q.2 = y + 1)) ∨
          (q.2 = y ∧ (x - 1 = q.1 + 1 ∨ q.1 = x - 1 + 1)) := hq
      rcases hq2 with ⟨h1, h2 | h2⟩ | ⟨h1, h2 | h2⟩
      · exact Or.inr (Or.inr ⟨by omega, by omega⟩)
      · exact Or.inr (Or.inr ⟨by omega, by omega⟩)
      · exact Or.inr (Or.inl (Prod.ext_iff.2
          ⟨show q.1 = x - 2 by omega, show q.2 = y by omega⟩))
      · exact Or.inl (Prod.ext_iff.2 ⟨show q.1 = x by omega, show q.2 = y by omega⟩)
    obtain ⟨hw1, hw2⟩ := lattWalls_extend cols rows g inv.wf (x - 1, y) (x - 2, y)
      (show (1:ℤ) ≤ x - 1 by omega) (show x - 1 < cols by omega)
      (show (1:ℤ) ≤ y by omega) (show y < rows by omega)
      (show (1:ℤ) ≤ x - 2 by omega) (show x - 2 < cols by omega)
      (show (1:ℤ) ≤ y by omega) (show y < rows by omega)
      (show ¬ ((x - 1) % 2 = 1 ∧ y % 2 = 1) by omega)
      (show (1 ≤ x - 2 ∧ x - 2 < cols - 1 ∧ 1 ≤ y ∧ y < rows - 1) ∧
        (x - 2) % 2 = 1 ∧ y % 2 = 1 from
        ⟨⟨by omega, by omega, by omega, by omega⟩, by omega, hy⟩) hnw
    have hiff := isFloor_extend cols rows g inv.wf (x - 1, y) (x - 2, y)
      (show (1:ℤ) ≤ x - 1 by omega) (show x - 1 < cols by omega)
      (show (1:ℤ) ≤ y by omega) (show y < rows by omega)
      (show (1:ℤ) ≤ x - 2 by omega) (show x - 2 < cols by omega)
      (show (1:ℤ) ≤ y by omega) (show y < rows by omega)
    exact ⟨MazeInv.extend_core cols rows g L inv (x, y) (x - 1, y) (x - 2, y) hafl
      hcinb hninb hnpar2 hcpar2 hadj1 hadj2 hendsX1 hendsY1 hnbr hnw,
      hw1, hw2, hiff, show ¬ ((x - 1) % 2 = 1 ∧ y % 2 = 1) by omega⟩
  · -- d = (0, 2)
    simp only [show ((0:ℤ), (2:ℤ)).1 = 0 from rfl, show ((0:ℤ), (2:ℤ)).2 = 2 from rfl,
      show (2:ℤ) / 2 = 1 from rfl, show (0:ℤ) / 2 = 0 from rfl, add_zero] at hbds hwall ⊢
    obtain ⟨hb1, hb2, hb3, hb4⟩ := hbds
    have hnw : ¬ isFloor g (x, y + 2) := by
      intro hf
      have hf2 : getCell g (y + 2) x = 0 := hf
      omega
    have hcinb : inb cols rows (x, y + 1) :=
      show 1 ≤ x ∧ x < cols - 1 ∧ 1 ≤ y + 1 ∧ y + 1 < rows - 1 from
        ⟨by omega, by omega, by omega, by omega⟩
    have hninb : inb cols rows (x, y + 2) :=
      show 1 ≤ x ∧ x < cols - 1 ∧ 1 ≤ y + 2 ∧ y + 2 < rows - 1 from
        ⟨by omega, by omega, hb3, hb4⟩
    have hnpar2 : x % 2 = 1 ∧ (y + 2) % 2 = 1 := ⟨hx, by omega⟩
    have hcpar2 : (x % 2 = 1 ∧ (y + 1) % 2 = 0) ∨ (x % 2 = 0 ∧ (y + 1) % 2 = 1) :=
      Or.inl ⟨hx, by omega⟩
    have hadj1 : cellAdj (x, y) (x, y + 1) := Or.inl ⟨rfl, Or.inl rfl⟩
    have hadj2 : cellAdj (x, y + 1) (x, y + 2) :=
      Or.inl ⟨rfl, Or.inl (show y + 2 = y + 1 + 1 by ring)⟩
    have hendsX1 : x % 2 = 0 →
        ((x - 1, y + 1) = (x, y) ∧ (x + 1, y + 1) = (x, y + 2)) ∨
        ((x - 1, y + 1) = (x, y + 2) ∧ (x + 1, y + 1) = (x, y)) :=
      fun h => absurd hx (by omega)
    have hendsY1 : (y + 1) % 2 = 0 →
        ((x, y + 1 - 1) = (x, y) ∧ (x, y + 1 + 1) = (x, y + 2)) ∨
        ((x, y + 1 - 1) = (x, y + 2) ∧ (x, y + 1 + 1) = (x, y)) := by
      intro _
      exact Or.inl ⟨Prod.ext_iff.2 ⟨rfl, show y + 1 - 1 = y by omega⟩,
        Prod.ext_iff.2 ⟨rfl, show y + 1 + 1 = y + 2 by omega⟩⟩
    have hnbr : ∀ q : ℤ × ℤ, cellAdj q (x, y + 1) →
        q = (x, y) ∨ q = (x, y + 2) ∨ (q.1 % 2 = 0 ∧ q.2 % 2 = 0) := by
      intro q hq
      have hq2 : (q.1 = x ∧ (y + 1 = q.2 + 1 ∨ q.2 = y + 1 + 1)) ∨
          (q.2 = y + 1 ∧ (x = q.1 + 1 ∨ q.1 = x + 1)) := hq
      rcases hq2 with ⟨h1, h2 | h2⟩ | ⟨h1, h2 | h2⟩
      · exact Or.inl (Prod.ext_iff.2 ⟨show q.1 = x by omega, show q.2 = y by omega⟩)
      · exact Or.inr (Or.inl (Prod.ext_iff.2
          ⟨show q.1 = x by omega, show q.2 = y + 2 by omega⟩))
      · exact Or.inr (Or.inr ⟨by omega, by omega⟩)
      · exact Or.inr (Or.inr ⟨by omega, by omega⟩)
    obtain ⟨hw1, hw2⟩ := lattWalls_extend cols rows g inv.wf (x, y + 1) (x, y + 2)
      (show (1:ℤ) ≤ x by omega) (show x < cols by omega)
      (show (1:ℤ) ≤ y + 1 by omega) (show y + 1 < rows by omega)
      (show (1:ℤ) ≤ x by omega) (show x < cols by omega)
      (show (1:ℤ) ≤ y + 2 by omega) (show y + 2 < rows by omega)
      (show ¬ (x % 2 = 1 ∧ (y + 1) % 2 = 1) by omega)
      (show (1 ≤ x ∧ x < cols - 1 ∧ 1 ≤ y + 2 ∧ y + 2 < rows - 1) ∧
        x % 2 = 1 ∧ (y + 2) % 2 = 1 from
        ⟨⟨by omega, by omega, hb3, hb4⟩, hx, by omega⟩) hnw
    have hiff := isFloor_extend cols rows g inv.wf (x, y + 1) (x, y + 2)
      (show (1:ℤ) ≤ x by omega) (show x < cols by omega)
      (show (1:ℤ) ≤ y + 1 by omega) (show y + 1 < rows by omega)
      (show (1:ℤ) ≤ x by omega) (show x < cols by omega)
      (show (1:ℤ) ≤ y + 2 by omega) (show y + 2 < rows by omega)
    exact ⟨MazeInv.extend_core cols rows g L inv (x, y) (x, y + 1) (x, y + 2) hafl
      hcinb hninb hnpar2 hcpar2 hadj1 hadj2 hendsX1 hendsY1 hnbr hnw,
      hw1, hw2, hiff, show ¬ (x % 2 = 1 ∧ (y + 1) % 2 = 1) by omega⟩
  · -- d = (0, -2)
    simp only [show ((0:ℤ), (-2:ℤ)).1 = 0 from rfl, show ((0:ℤ), (-2:ℤ)).2 = -2 from rfl,
      show (-2:ℤ) / 2 = -1 from rfl, show (0:ℤ) / 2 = 0 from rfl, add_zero,
      show y + (-2:ℤ) = y - 2 from rfl, show y + (-1:ℤ) = y - 1 from rfl] at hbds hwall ⊢
    obtain ⟨hb1, hb2, hb3, hb4⟩ := hbds
    have hnw : ¬ isFloor g (x, y - 2) := by
      intro hf
      have hf2 : getCell g (y - 2) x = 0 := hf
      omega
    have hcinb : inb cols rows (x, y - 1) :=
      show 1 ≤ x ∧ x < cols - 1 ∧ 1 ≤ y - 1 ∧ y - 1 < rows - 1 from
        ⟨by omega, by omega, by omega, by omega⟩
    have hninb : inb cols rows (x, y - 2) :=
      show 1 ≤ x ∧ x < cols - 1 ∧ 1 ≤ y - 2 ∧ y - 2 < rows - 1 from
        ⟨by omega, by omega, by omega, by omega⟩
    have hnpar2 : x % 2 = 1 ∧ (y - 2) % 2 = 1 := ⟨hx, by omega⟩
    have hcpar2 : (x % 2 = 1 ∧ (y - 1) % 2 = 0) ∨ (x % 2 = 0 ∧ (y - 1) % 2 = 1) :=
      Or.inl ⟨hx, by omega⟩
    have hadj1 : cellAdj (x, y) (x, y - 1) :=
      Or.inl ⟨rfl, Or.inr (show y = y - 1 + 1 by ring)⟩
    have hadj2 : cellAdj (x, y - 1) (x, y - 2) :=
      Or.inl ⟨rfl, Or.inr (show y - 1 = y - 2 + 1 by ring)⟩
    have hendsX1 : x % 2 = 0 →
        ((x - 1, y - 1) = (x, y) ∧ (x + 1, y - 1) = (x, y - 2)) ∨
        ((x - 1, y - 1) = (x, y - 2) ∧ (x + 1, y - 1) = (x, y)) :=
      fun h => absurd hx (by omega)
    have hendsY1 : (y - 1) % 2 = 0 →
        ((x, y - 1 - 1) = (x, y) ∧ (x, y - 1 + 1) = (x, y - 2)) ∨
        ((x, y - 1 - 1) = (x, y - 2) ∧ (x, y - 1 + 1) = (x, y)) := by
      intro _
      exact Or.inr ⟨Prod.ext_iff.2 ⟨rfl, show y - 1 - 1 = y - 2 by omega⟩,
        Prod.ext_iff.2 ⟨rfl, show y - 1 + 1 = y by omega⟩⟩
    have hnbr : ∀ q : ℤ × ℤ, cellAdj q (x, y - 1) →
        q = (x, y) ∨ q = (x, y - 2) ∨ (q.1 % 2 = 0 ∧ q.2 % 2 = 0) := by
      intro q hq
      have hq2 : (q.1 = x ∧ (y - 1 = q.2 + 1 ∨ q.2 = y - 1 + 1)) ∨
          (q.2 = y - 1 ∧ (x = q.1 + 1 ∨ q.1 = x + 1)) := hq
      rcases hq2 with ⟨h1, h2 | h2⟩ | ⟨h1, h2 | h2⟩
      · exact Or.inr (Or.inl (Prod.ext_iff.2
          ⟨show q.1 = x by omega, show q.2 = y - 2 by omega⟩))
      · exact Or.inl (Prod.ext_iff.2 ⟨show q.1 = x by omega, show q.2 = y by omega⟩)
      · exact Or.inr (Or.inr ⟨by omega, by omega⟩)
      · exact Or.inr (Or.inr ⟨by omega, by omega⟩)
    obtain ⟨hw1, hw2⟩ := lattWalls_extend cols rows g inv.wf (x, y - 1) (x, y - 2)
      (show (1:ℤ) ≤ x by omega) (show x < cols by omega)
      (show (1:ℤ) ≤ y - 1 by omega) (show y - 1 < rows by omega)
      (show (1:ℤ) ≤ x by omega) (show x < cols by omega)
      (show (1:ℤ) ≤ y - 2 by omega) (show y - 2 < rows by omega)
      (show ¬ (x % 2 = 1 ∧ (y - 1) % 2 = 1) by omega)
      (show (1 ≤ x ∧ x < cols - 1 ∧ 1 ≤ y - 2 ∧ y - 2 < rows - 1) ∧
        x % 2 = 1 ∧ (y - 2) % 2 = 1 from
        ⟨⟨by omega, by omega, by omega, by omega⟩, hx, by omega⟩) hnw
    have hiff := isFloor_extend cols rows g inv.wf (x, y - 1) (x, y - 2)
      (show (1:ℤ) ≤ x by omega) (show x < cols by omega)
      (show (1:ℤ) ≤ y - 1 by omega) (show y - 1 < rows by omega)
      (show (1:ℤ) ≤ x by omega) (show x < cols by omega)
      (show (1:ℤ) ≤ y - 2 by omega) (show y - 2 < rows by omega)
    exact ⟨MazeInv.extend_core cols rows g L inv (x, y) (x, y - 1) (x, y - 2) hafl
      hcinb hninb hnpar2 hcpar2 hadj1 hadj2 hendsX1 hendsY1 hnbr hnw,
      hw1, hw2, hiff, show ¬ (x % 2 = 1 ∧ (y - 1) % 2 = 1) by omega⟩

/-- Postcondition of a carve call on grid `g` producing `g'` from root
`(x, y)` with pending direction list `ds` and prior carve order `L`: the
invariant extends `L`, floors only grow, every in-bounds target of a
pending direction ends up floor, and every newly carved odd-parity cell
ends up with all its in-bounds lattice neighbours floor. -/
abbrev carvePost (cols rows : ℤ) (g g' : Grid) (x y : ℤ)
    (ds L : List (ℤ × ℤ)) : Prop :=
  (∃ t, MazeInv cols rows g' (L ++ t)) ∧
  (∀ p, isFloor g p → isFloor g' p) ∧
  (∀ d ∈ ds, inb cols rows (x + d.1, y + d.2) → isFloor g' (x + d.1, y + d.2)) ∧
  (∀ p : ℤ × ℤ, isFloor g' p → ¬ isFloor g p → p.1 % 2 = 1 → p.2 % 2 = 1 →
    ∀ d ∈ dirs, inb cols rows (p.1 + d.1, p.2 + d.2) →
      isFloor g' (p.1 + d.1, p.2 + d.2))

/-- Gluing of the non-invariant postcondition components across one
successful carve (`g → g2`), the recursive call into the target
(`g2 → g3`), and the continuation of the loop (`g3 → g4`). -/
theorem carvePost_assemble (cols rows : ℤ) (g g2 g3 g4 : Grid) (x y : ℤ)
    (d : ℤ × ℤ) (rest : List (ℤ × ℤ))
    (hiff : ∀ p : ℤ × ℤ, isFloor g2 p ↔
      (p = (x + d.1, y + d.2) ∨ p = (x + d.1 / 2, y + d.2 / 2) ∨ isFloor g p))
    (hcConn : ¬ ((x + d.1 / 2) % 2 = 1 ∧ (y + d.2 / 2) % 2 = 1))
    (mono1 : ∀ p, isFloor g2 p → isFloor g3 p)
    (hb1 : ∀ d2 ∈ dirs, inb cols rows (x + d.1 + d2.1, y + d.2 + d2.2) →
      isFloor g3 (x + d.1 + d2.1, y + d.2 + d2.2))
    (hc1 : ∀ p : ℤ × ℤ, isFloor g3 p → ¬ isFloor g2 p → p.1 % 2 = 1 →
      p.2 % 2 = 1 → ∀ d2 ∈ dirs, inb cols rows (p.1 + d2.1, p.2 + d2.2) →
      isFloor g3 (p.1 + d2.1, p.2 + d2.2))
    (mono2 : ∀ p, isFloor g3 p → isFloor g4 p)
    (hb2 : ∀ d2 ∈ rest, inb cols rows (x + d2.1, y + d2.2) →
      isFloor g4 (x + d2.1, y + d2.2))
    (hc2 : ∀ p : ℤ × ℤ, isFloor g4 p → ¬ isFloor g3 p → p.1 % 2 = 1 →
      p.2 % 2 = 1 → ∀ d2 ∈ dirs, inb cols rows (p.1 + d2.1, p.2 + d2.2) →
      isFloor g4 (p.1 + d2.1, p.2 + d2.2)) :
    (∀ p, isFloor g p → isFloor g4 p) ∧
    (∀ d2 ∈ (d :: rest), inb cols rows (x + d2.1, y + d2.2) →
      isFloor g4 (x + d2.1, y + d2.2)) ∧
    (∀ p : ℤ × ℤ, isFloor g4 p → ¬ isFloor g p → p.1 % 2 = 1 → p.2 % 2 = 1 →
      ∀ d2 ∈ dirs, inb cols rows (p.1 + d2.1, p.2 + d2.2) →
      isFloor g4 (p.1 + d2.1, p.2 + d2.2)) := by
  refine ⟨?_, ?_, ?_⟩
  · exact fun p hp => mono2 _ (mono1 _ ((hiff p).2 (Or.inr (Or.inr hp))))
  · intro d2 hd2 hinb
    rcases List.mem_cons.1 hd2 with rfl | hmem
    · exact mono2 _ (mono1 _ ((hiff _).2 (Or.inl rfl)))
    · exact hb2 d2 hmem hinb
  · intro p hp4 hpg hp1 hp2 d2 hd2 hinb
    by_cases hp3 : isFloor g3 p
    · by_cases hpg2 : isFloor g2 p
      · rcases (hiff p).1 hpg2 with rfl | rfl | hfg
        · exact mono2 _ (hb1 d2 hd2 hinb)
        · exact absurd ⟨hp1, hp2⟩ hcConn
        · exact absurd hfg hpg
      · exact mono2 _ (hc1 p hp3 hpg2 hp1 hp2 d2 hd2 hinb)
    · exact hc2 p hp4 hp3 hp1 hp2 d2 hd2 hinb

/-- Parity of a `±2`-step target from an odd-parity cell. -/
theorem dir_target_parity (x y : ℤ) (hx : x % 2 = 1) (hy : y % 2 = 1)
    (d : ℤ × ℤ) (hd : d ∈ dirs) :
    (x + d.1) % 2 = 1 ∧ (y + d.2) % 2 = 1 := by
  simp only [dirs, List.mem_cons, List.not_mem_nil, or_false] at hd
  rcases hd with rfl | rfl | rfl | rfl
  · exact ⟨show (x + 2) % 2 = 1 by omega, show (y + 0) % 2 = 1 by omega⟩
  · exact ⟨show (x + -2) % 2 = 1 by omega, show (y + 0) % 2 = 1 by omega⟩
  · exact ⟨show (x + 0) % 2 = 1 by omega, show (y + 2) % 2 = 1 by omega⟩
  · exact ⟨show (x + 0) % 2 = 1 by omega, show (y + -2) % 2 = 1 by omega⟩

/-- The grand induction over fuel: a `carve` call from an odd-parity floor
cell of an invariant-satisfying grid, with fuel at least the number of
uncarved lattice cells, satisfies the full carve postcondition. -/
theorem carve_ok (shuffle : ℕ → List (ℤ × ℤ)) (hsh : ∀ m, (shuffle m).Perm dirs)
    (cols rows : ℤ) :
    ∀ fuel : ℕ, ∀ (g : Grid) (x y : ℤ) (s : ℕ) (L : List (ℤ × ℤ)),
      MazeInv cols rows g L → x % 2 = 1 → y % 2 = 1 → isFloor g (x, y) →
      lattWalls cols rows g ≤ fuel →
      carvePost cols rows g (carve shuffle cols rows fuel g x y s).1 x y dirs L := by
  intro fuel
  induction fuel with
  | zero =>
    intro g x y s L inv hx hy hfl hfuel
    rw [carve_zero]
    refine ⟨⟨[], by simpa using inv⟩, fun p hp => hp, ?_, ?_⟩
    · intro d hd hinb
      refine lattWalls_eq_zero cols rows g (Nat.le_zero.1 hfuel) _ ?_
      have hpar := dir_target_parity x y hx hy d hd
      exact ⟨hinb, hpar.1, hpar.2⟩
    · intro p hp hnp _ _
      exact absurd hp hnp
  | succ f ih =>
    have go : ∀ ds : List (ℤ × ℤ), (∀ d ∈ ds, d ∈ dirs) →
        ∀ (g : Grid) (x y : ℤ) (s : ℕ) (L : List (ℤ × ℤ)),
        MazeInv cols rows g L → x % 2 = 1 → y % 2 = 1 → isFloor g (x, y) →
        lattWalls cols rows g ≤ f + 1 →
        carvePost cols rows g (carveGo shuffle cols rows f g x y ds s).1 x y ds L := by
      intro ds
      induction ds with
      | nil =>
        intro _ g x y s L inv hx hy hfl hfuel
        rw [carveGo_nil]
        exact ⟨⟨[], by simpa using inv⟩, fun p hp => hp,
          fun d hd => absurd hd (List.not_mem_nil d),
          fun p hp hnp _ _ => absurd hp hnp⟩
      | cons d rest ihds =>
        intro hsub g x y s L inv hx hy hfl hfuel
        have hd : d ∈ dirs := hsub d (List.mem_cons_self d rest)
        have hsubr : ∀ d2 ∈ rest, d2 ∈ dirs :=
          fun d2 h2 => hsub d2 (List.mem_cons_of_mem d h2)
        rw [carveGo_cons]
        by_cases hg : 1 ≤ x + d.1 ∧ x + d.1 < cols - 1 ∧ 1 ≤ y + d.2 ∧
            y + d.2 < rows - 1 ∧ getCell g (y + d.2) (x + d.1) = 1
        · rw [if_pos hg]
          obtain ⟨hg1, hg2, hg3, hg4, hg5⟩ := hg
          obtain ⟨inv2, hwEq, hwPos, hiff, hcConn⟩ :=
            MazeInv.extend_dir cols rows g L inv x y d hd hx hy hfl
              ⟨hg1, hg2, hg3, hg4⟩ hg5
          have hpar := dir_target_parity x y hx hy d hd
          have hfl2 : isFloor
              (setCell (setCell g (y + d.2 / 2) (x + d.1 / 2) 0)
                (y + d.2) (x + d.1) 0) (x + d.1, y + d.2) :=
            (hiff _).2 (Or.inl rfl)
          have hlatt2 : lattWalls cols rows
              (setCell (setCell g (y + d.2 / 2) (x + d.1 / 2) 0)
                (y + d.2) (x + d.1) 0) ≤ f := by omega
          obtain ⟨⟨t1, inv3⟩, mono1, hb1, hc1⟩ :=
            ih (setCell (setCell g (y + d.2 / 2) (x + d.1 / 2) 0)
                (y + d.2) (x + d.1) 0) (x + d.1) (y + d.2) s
              (L ++ [(x + d.1 / 2, y + d.2 / 2), (x + d.1, y + d.2)])
              inv2 hpar.1 hpar.2 hfl2 hlatt2
          have hfl3 : isFloor
              (carve shuffle cols rows f
                (setCell (setCell g (y + d.2 / 2) (x + d.1 / 2) 0)
                  (y + d.2) (x + d.1) 0) (x + d.1) (y + d.2) s).1 (x, y) :=
            mono1 _ ((hiff _).2 (Or.inr (Or.inr hfl)))
          have hlatt3 : lattWalls cols rows
              (carve shuffle cols rows f
                (setCell (setCell g (y + d.2 / 2) (x + d.1 / 2) 0)
                  (y + d.2) (x + d.1) 0) (x + d.1) (y + d.2) s).1 ≤ f + 1 :=
            le_trans (lattWalls_mono cols rows _ _ mono1) (by omega)
          obtain ⟨⟨t2, inv4⟩, mono2, hb2, hc2⟩ :=
            ihds hsubr
              (carve shuffle cols rows f
                (setCell (setCell g (y + d.2 / 2) (x + d.1 / 2) 0)
                  (y + d.2) (x + d.1) 0) (x + d.1) (y + d.2) s).1 x y
              (carve shuffle cols rows f
                (setCell (setCell g (y + d.2 / 2) (x + d.1 / 2) 0)
                  (y + d.2) (x + d.1) 0) (x + d.1) (y + d.2) s).2
              ((L ++ [(x + d.1 / 2, y + d.2 / 2), (x + d.1, y + d.2)]) ++ t1)
              inv3 hx hy hfl3 hlatt3
          have hass := carvePost_assemble cols rows g _ _ _ x y d rest
            hiff hcConn mono1 hb1 hc1 mono2 hb2 hc2
          exact ⟨⟨[(x + d.1 / 2, y + d.2 / 2), (x + d.1, y + d.2)] ++ t1 ++ t2,
            by simpa [List.append_assoc] using inv4⟩, hass.1, hass.2.1, hass.2.2⟩
        · rw [if_neg hg]
          obtain ⟨he, mono, hb, hc⟩ :=
            ihds hsubr g x y s L inv hx hy hfl hfuel
          refine ⟨he, mono, ?_, hc⟩
          intro d2 hd2 hinb
          rcases List.mem_cons.1 hd2 with rfl | hmem
          · have hinb2 : 1 ≤ x + d2.1 ∧ x + d2.1 < cols - 1 ∧ 1 ≤ y + d2.2 ∧
                y + d2.2 < rows - 1 := hinb
            have hfloor : getCell g (y + d2.2) (x + d2.1) = 0 := by
              rcases inv.binary (y + d2.2) (x + d2.1) with h0 | h1
              · exact h0
              · exact absurd ⟨hinb2.1, hinb2.2.1, hinb2.2.2.1, hinb2.2.2.2, h1⟩ hg
            exact mono _ hfloor
          · exact hb d2 hmem hinb
    intro g x y s L inv hx hy hfl hfuel
    rw [carve_succ]
    obtain ⟨he, mono, hb, hc⟩ :=
      go (shuffle s) (fun d hd => ((hsh s).mem_iff).1 hd) g x y (s + 1) L
        inv hx hy hfl hfuel
    exact ⟨he, mono, fun d hd hinb => hb d (((hsh s).mem_iff).2 hd) hinb, hc⟩

/-- At least-2 requests odd-adjust to at least 3, and conversely. -/
theorem oddAdjust_three (n : ℤ) : 3 ≤ oddAdjust n ↔ 2 ≤ n := by
  unfold oddAdjust
  by_cases h : n % 2 = 0
  · rw [if_pos h]; omega
  · rw [if_neg h]; omega

/-- In the freshly initialised grid (all WALL except the start write), the
only floor cell is `(1, 1)`. -/
theorem isFloor_init (cols rows : ℤ) (hc : 3 ≤ cols) (hr : 3 ≤ rows) :
    ∀ p : ℤ × ℤ,
      isFloor (setCell (List.replicate rows.toNat (List.replicate cols.toNat 1))
        1 1 0) p ↔ p = (1, 1) := by
  intro p
  constructor
  · intro hf
    by_cases hpq : p.2.toNat = (1:ℤ).toNat ∧ p.1.toNat = (1:ℤ).toNat
    · exact Prod.ext_iff.2 ⟨by omega, by omega⟩
    · exfalso
      unfold isFloor at hf
      rw [getCell_setCell_ne _ _ _ _ _ _ hpq, getCell_replicate] at hf
      exact one_ne_zero hf
  · rintro rfl
    unfold isFloor
    refine getCell_setCell_eq _ _ _ _ ?_ ?_
    · rw [List.length_replicate]; omega
    · rw [getD_replicate, if_pos (by omega), List.length_replicate]; omega

/-- The carving invariant of the initial grid, with carve order `[(1,1)]`. -/
theorem mazeInit_inv (cols rows : ℤ) (hc : 3 ≤ cols) (hr : 3 ≤ rows) :
    MazeInv cols rows
      (setCell (List.replicate rows.toNat (List.replicate cols.toNat 1)) 1 1 0)
      [(1, 1)] := by
  have hflIff := isFloor_init cols rows hc hr
  refine ⟨?_, ?_, ?_, ?_, ?_, ?_, ?_⟩
  · exact gridWF_setCell cols rows _ 1 1 0 (gridWF_replicate cols rows)
  · intro y x
    by_cases hpq : y.toNat = (1:ℤ).toNat ∧ x.toNat = (1:ℤ).toNat
    · left
      rw [getCell_congr _ hpq.1 hpq.2]
      exact (hflIff (1, 1)).2 rfl
    · right
      rw [getCell_setCell_ne _ _ _ _ _ _ hpq, getCell_replicate]
  · intro p
    rw [List.mem_singleton]
    exact (hflIff p).symm
  · exact List.nodup_singleton _
  · intro p hf
    have hp := (hflIff p).1 hf
    subst hp
    left
    exact show ((1:ℤ) ≤ 1 ∧ (1:ℤ) < cols - 1 ∧ (1:ℤ) ≤ 1 ∧ (1:ℤ) < rows - 1) ∧
        (1:ℤ) % 2 = 1 ∧ (1:ℤ) % 2 = 1 from
      ⟨⟨le_refl _, by omega, le_refl _, by omega⟩, by decide, by decide⟩
  · intro p hf hconn
    have hp := (hflIff p).1 hf
    subst hp
    exfalso
    have hcp : ((1:ℤ) % 2 = 1 ∧ (1:ℤ) % 2 = 0) ∨
        ((1:ℤ) % 2 = 0 ∧ (1:ℤ) % 2 = 1) := hconn.2
    rcases hcp with ⟨_, h⟩ | ⟨h, _⟩
    · exact absurd h (by decide)
    · exact absurd h (by decide)
  · intro i hi0 hilen
    simp only [List.length_singleton] at hilen
    exact absurd hilen (by omega)

/-- Closure argument: if `(1,1)` is floor and every odd-parity floor cell
propagates floor to all its in-bounds lattice neighbours, then every
lattice cell of the interior is floor. -/
theorem latt_coverage (cols rows : ℤ) (g2 : Grid) (hc : 3 ≤ cols) (hr : 3 ≤ rows)
    (h11 : isFloor g2 (1, 1))
    (hstep : ∀ p : ℤ × ℤ, isFloor g2 p → p.1 % 2 = 1 → p.2 % 2 = 1 →
      ∀ d ∈ dirs, inb cols rows (p.1 + d.1, p.2 + d.2) →
        isFloor g2 (p.1 + d.1, p.2 + d.2)) :
    ∀ p : ℤ × ℤ, isLat cols rows p → isFloor g2 p := by
  have key : ∀ m : ℕ, ∀ p : ℤ × ℤ, isLat cols rows p →
      (p.1 + p.2).toNat ≤ m → isFloor g2 p := by
    intro m
    induction m with
    | zero =>
      intro p hp hle
      have hp2 : (1 ≤ p.1 ∧ p.1 < cols - 1 ∧ 1 ≤ p.2 ∧ p.2 < rows - 1) ∧
          p.1 % 2 = 1 ∧ p.2 % 2 = 1 := hp
      exact absurd hle (by omega)
    | succ m ihm =>
      intro p hp hle
      have hp2 : (1 ≤ p.1 ∧ p.1 < cols - 1 ∧ 1 ≤ p.2 ∧ p.2 < rows - 1) ∧
          p.1 % 2 = 1 ∧ p.2 % 2 = 1 := hp
      by_cases h1 : p = (1, 1)
      · rw [h1]; exact h11
      · have h3 : 3 ≤ p.1 ∨ 3 ≤ p.2 := by
          by_contra hcon
          push_neg at hcon
          exact h1 (Prod.ext_iff.2 ⟨by omega, by omega⟩)
        rcases h3 with h3 | h3
        · have hplat : isLat cols rows (p.1 - 2, p.2) :=
            show (1 ≤ p.1 - 2 ∧ p.1 - 2 < cols - 1 ∧ 1 ≤ p.2 ∧ p.2 < rows - 1) ∧
                (p.1 - 2) % 2 = 1 ∧ p.2 % 2 = 1 from
              ⟨⟨by omega, by omega, by omega, by omega⟩, by omega, by omega⟩
          have hf2 := ihm (p.1 - 2, p.2) hplat
            (show ((p.1 - 2) + p.2).toNat ≤ m by omega)
          have hinb : inb cols rows (p.1 - 2 + 2, p.2 + 0) :=
            show 1 ≤ p.1 - 2 + 2 ∧ p.1 - 2 + 2 < cols - 1 ∧ 1 ≤ p.2 + 0 ∧
                p.2 + 0 < rows - 1 from ⟨by omega, by omega, by omega, by omega⟩
          have hfin : isFloor g2 (p.1 - 2 + 2, p.2 + 0) :=
            hstep (p.1 - 2, p.2) hf2 (show (p.1 - 2) % 2 = 1 by omega) hp2.2.2
              (2, 0) (by simp [dirs]) hinb
          have hpe : ((p.1 - 2 + 2 : ℤ), (p.2 + 0 : ℤ)) = p := by
            rw [show p.1 - 2 + 2 = p.1 by ring, show p.2 + 0 = p.2 by ring]
          rw [hpe] at hfin
          exact hfin
        · have hplat : isLat cols rows (p.1, p.2 - 2) :=
            show (1 ≤ p.1 ∧ p.1 < cols - 1 ∧ 1 ≤ p.2 - 2 ∧ p.2 - 2 < rows - 1) ∧
                p.1 % 2 = 1 ∧ (p.2 - 2) % 2 = 1 from
              ⟨⟨by omega, by omega, by omega, by omega⟩, by omega, by omega⟩
          have hf2 := ihm (p.1, p.2 - 2) hplat
            (show (p.1 + (p.2 - 2)).toNat ≤ m by omega)
          have hinb : inb cols rows (p.1 + 0, p.2 - 2 + 2) :=
            show 1 ≤ p.1 + 0 ∧ p.1 + 0 < cols - 1 ∧ 1 ≤ p.2 - 2 + 2 ∧
                p.2 - 2 + 2 < rows - 1 from ⟨by omega, by omega, by omega, by omega⟩
          have hfin : isFloor g2 (p.1 + 0, p.2 - 2 + 2) :=
            hstep (p.1, p.2 - 2) hf2 hp2.2.1 (show (p.2 - 2) % 2 = 1 by omega)
              (0, 2) (by simp [dirs]) hinb
          have hpe : ((p.1 + 0 : ℤ), (p.2 - 2 + 2 : ℤ)) = p := by
            rw [show p.1 + 0 = p.1 by ring, show p.2 - 2 + 2 = p.2 by ring]
          rw [hpe] at hfin
          exact hfin
  intro p hp
  exact key (p.1 + p.2).toNat p hp (le_refl _)

/-- Top-level run of the carver: for any request at least 2×2 the start
write succeeds, the carve from `(1,1)` maintains the invariant with carve
order starting at `(1,1)`, and every interior lattice cell ends up FLOOR. -/
theorem mazeCore_ok (shuffle : ℕ → List (ℤ × ℤ))
    (hsh : ∀ m, (shuffle m).Perm dirs) (cols0 rows0 : ℤ)
    (hc : 2 ≤ cols0) (hr : 2 ≤ rows0) :
    ∃ g : Grid, mazeCore shuffle cols0 rows0 = some g ∧
      (∃ t, MazeInv (oddAdjust cols0) (oddAdjust rows0) g ((1, 1) :: t)) ∧
      (∀ p : ℤ × ℤ, isLat (oddAdjust cols0) (oddAdjust rows0) p → isFloor g p) := by
  have hc3 : 3 ≤ oddAdjust cols0 := (oddAdjust_three cols0).2 hc
  have hr3 : 3 ≤ oddAdjust rows0 := (oddAdjust_three rows0).2 hr
  have hcond : 1 < (oddAdjust rows0).toNat ∧ 1 < (oddAdjust cols0).toNat :=
    ⟨by omega, by omega⟩
  rw [mazeCore_eq_ite, if_pos hcond]
  have hinv0 := mazeInit_inv (oddAdjust cols0) (oddAdjust rows0) hc3 hr3
  have hflIff := isFloor_init (oddAdjust cols0) (oddAdjust rows0) hc3 hr3
  have hfuel := lattWalls_le_total (oddAdjust cols0) (oddAdjust rows0)
    (setCell (List.replicate (oddAdjust rows0).toNat
      (List.replicate (oddAdjust cols0).toNat 1)) 1 1 0)
  obtain ⟨⟨t, inv2⟩, mono, hb, hcl⟩ :=
    carve_ok shuffle hsh (oddAdjust cols0) (oddAdjust rows0)
      ((oddAdjust rows0).toNat * (oddAdjust cols0).toNat)
      (setCell (List.replicate (oddAdjust rows0).toNat
        (List.replicate (oddAdjust cols0).toNat 1)) 1 1 0)
      1 1 0 [(1, 1)] hinv0 (by decide) (by decide)
      ((hflIff (1, 1)).2 rfl) hfuel
  refine ⟨_, rfl, ⟨t, inv2⟩, ?_⟩
  apply latt_coverage (oddAdjust cols0) (oddAdjust rows0) _ hc3 hr3
    (mono _ ((hflIff (1, 1)).2 rfl))
  intro p hpfl hp1 hp2 d hd hinb
  by_cases hp11 : p = (1, 1)
  · subst hp11
    exact hb d hd hinb
  · refine hcl p hpfl ?_ hp1 hp2 d hd hinb
    intro hf0
    exact hp11 ((hflIff p).1 hf0)

/-- C10: for every input whose odd-adjusted column and row counts are at
least 3, the depth-first carve started at (1,1) visits every interior
lattice cell (odd column, odd row), so on return every such cell is FLOOR;
in particular the exit cell `(cols-2, rows-2)` is already FLOOR before the
final forced assignment `grid[rows-2][cols-2] = 0`, making that assignment
a no-op, and `generate_maze` returns the carved grid unchanged. -/
theorem C10_dfs_full_coverage (shuffle : ℕ → List (ℤ × ℤ))
    (hsh : ∀ m, (shuffle m).Perm dirs) (cols0 rows0 : ℤ)
    (hc : 3 ≤ oddAdjust cols0) (hr : 3 ≤ oddAdjust rows0) :
    ∃ g : Grid, mazeCore shuffle cols0 rows0 = some g ∧
      (∀ p : ℤ × ℤ, isLat (oddAdjust cols0) (oddAdjust rows0) p → isFloor g p) ∧
      isFloor g (oddAdjust cols0 - 2, oddAdjust rows0 - 2) ∧
      setCell g (oddAdjust rows0 - 2) (oddAdjust cols0 - 2) 0 = g ∧
      generate_maze shuffle cols0 rows0 = some g := by
  obtain ⟨g, hmc, _, hall⟩ := mazeCore_ok shuffle hsh cols0 rows0
    ((oddAdjust_three cols0).1 hc) ((oddAdjust_three rows0).1 hr)
  have ho1 := oddAdjust_odd cols0
  have ho2 := oddAdjust_odd rows0
  have hexit : isFloor g (oddAdjust cols0 - 2, oddAdjust rows0 - 2) := by
    apply hall
    exact show (1 ≤ oddAdjust cols0 - 2 ∧
        oddAdjust cols0 - 2 < oddAdjust cols0 - 1 ∧
        1 ≤ oddAdjust rows0 - 2 ∧
        oddAdjust rows0 - 2 < oddAdjust rows0 - 1) ∧
        (oddAdjust cols0 - 2) % 2 = 1 ∧ (oddAdjust rows0 - 2) % 2 = 1 from
      ⟨⟨by omega, by omega, by omega, by omega⟩, by omega, by omega⟩
  have hnoop : setCell g (oddAdjust rows0 - 2) (oddAdjust cols0 - 2) 0 = g :=
    setCell_noop g (oddAdjust rows0 - 2) (oddAdjust cols0 - 2) 0 hexit
  refine ⟨g, hmc, hall, hexit, hnoop, ?_⟩
  show (mazeCore shuffle cols0 rows0).map
    (fun g2 => setCell g2 (oddAdjust rows0 - 2) (oddAdjust cols0 - 2) 0) = some g
  rw [hmc, Option.map_some', hnoop]

theorem C10_dfs_full_coverage_witness :
    (∀ m, (shuffleId m).Perm dirs) ∧ (3:ℤ) ≤ oddAdjust 5 ∧ (3:ℤ) ≤ oddAdjust 7 ∧
    (∃ g : Grid, mazeCore shuffleId 5 7 = some g ∧
      (∀ p : ℤ × ℤ, isLat (oddAdjust 5) (oddAdjust 7) p → isFloor g p) ∧
      isFloor g (oddAdjust 5 - 2, oddAdjust 7 - 2) ∧
      setCell g (oddAdjust 7 - 2) (oddAdjust 5 - 2) 0 = g ∧
      generate_maze shuffleId 5 7 = some g) :=
  ⟨fun _ => List.Perm.refl dirs, by decide, by decide,
    C10_dfs_full_coverage shuffleId (fun _ => List.Perm.refl dirs) 5 7
      (by decide) (by decide)⟩

/-! ### The floor-cell graph of a grid -/

/-- The graph whose vertices are the FLOOR cells of `g` and whose edges
are the 4-neighbour steps between FLOOR cells. -/
def floorGraph (g : Grid) : SimpleGraph {p : ℤ × ℤ // isFloor g p} where
  Adj a b := cellAdj a.1 b.1
  symm := fun _ _ h => cellAdj_symm h
  loopless := fun _ h => (cellAdj_ne h) rfl

theorem walk_getVert_mem_support {V : Type} {G : SimpleGraph V} :
    ∀ {a u : V} (q : G.Walk a u) (i : ℕ), q.getVert i ∈ q.support := by
  intro a u q
  induction q with
  | nil =>
    intro i
    exact SimpleGraph.Walk.start_mem_support _
  | cons h p ih =>
    intro i
    cases i with
    | zero =>
      rw [SimpleGraph.Walk.getVert_zero]
      exact SimpleGraph.Walk.start_mem_support _
    | succ j =>
      rw [SimpleGraph.Walk.getVert_cons_succ, SimpleGraph.Walk.support_cons]
      exact List.mem_cons_of_mem _ (ih j)

theorem walk_getVert_mem_tail {V : Type} {G : SimpleGraph V} {a u : V}
    (q : G.Walk a u) (i : ℕ) (hi1 : 1 ≤ i) (hi2 : i ≤ q.length) :
    q.getVert i ∈ q.support.tail := by
  cases q with
  | nil =>
    rw [SimpleGraph.Walk.length_nil] at hi2
    exact absurd hi1 (by omega)
  | cons h p =>
    obtain ⟨j, rfl⟩ : ∃ j, i = j + 1 := ⟨i - 1, by omega⟩
    rw [SimpleGraph.Walk.getVert_cons_succ, SimpleGraph.Walk.support_cons,
      List.tail_cons]
    exact walk_getVert_mem_support p j

theorem rotate_support_subset {V : Type} [DecidableEq V] {G : SimpleGraph V}
    (v u : V) (W : G.Walk v v) (huW : u ∈ W.support) (w : V)
    (hw : w ∈ (W.rotate huW).support) : w ∈ W.support := by
  have h1 : (W.rotate huW).support = u :: (W.rotate huW).support.tail :=
    SimpleGraph.Walk.support_eq_cons _
  rw [h1] at hw
  rcases List.mem_cons.1 hw with rfl | hmem
  · exact huW
  · have h2 := (W.support_rotate huW).mem_iff.1 hmem
    have h3 : W.support = v :: W.support.tail :=
      SimpleGraph.Walk.support_eq_cons _
    rw [h3]
    exact List.mem_cons_of_mem _ h2

/-- A cycle through the maximal-carve-index vertex `u` would give `u` two
distinct earlier neighbours in carve order, contradicting the uniqueness
component of the invariant. -/
theorem cycle_two_earlier (cols rows : ℤ) (g : Grid) (L : List (ℤ × ℤ))
    (inv : MazeInv cols rows g L) (u : {p : ℤ × ℤ // isFloor g p}) (iu : ℕ)
    (hiulen : iu < L.length) (huq : u.1 = Lget L iu)
    (C : (floorGraph g).Walk u u) (hCC : C.IsCycle)
    (hidx : ∀ w : {p : ℤ × ℤ // isFloor g p}, w ∈ C.support → w ≠ u →
      ∃ k, k < iu ∧ Lget L k = w.1) : False := by
  cases C with
  | nil =>
    have h3 := hCC.three_le_length
    rw [SimpleGraph.Walk.length_nil] at h3
    exact absurd h3 (by omega)
  | @cons _ b0 _ hadj q =>
    obtain ⟨hqpath, _⟩ := (SimpleGraph.Walk.cons_isCycle_iff q hadj).1 hCC
    have hlen2 : 2 ≤ q.length := by
      have h3 := hCC.three_le_length
      rw [SimpleGraph.Walk.length_cons] at h3
      omega
    have hadjb : (floorGraph g).Adj (q.getVert (q.length - 1)) u := by
      have h4 := q.adj_getVert_succ (show q.length - 1 < q.length by omega)
      rw [show q.length - 1 + 1 = q.length from by omega,
        SimpleGraph.Walk.getVert_length] at h4
      exact h4
    have hne_ab : b0 ≠ q.getVert (q.length - 1) := by
      intro he
      have hmem := walk_getVert_mem_tail q (q.length - 1) (by omega) (by omega)
      have hstart : b0 ∉ q.support.tail := by
        have h1 : q.support = b0 :: q.support.tail :=
          SimpleGraph.Walk.support_eq_cons _
        have h2 := hqpath.support_nodup
        rw [h1, List.nodup_cons] at h2
        exact h2.1
      rw [← he] at hmem
      exact hstart hmem
    have hb0C : b0 ∈ (SimpleGraph.Walk.cons hadj q).support := by
      rw [SimpleGraph.Walk.support_cons]
      exact List.mem_cons_of_mem _ (SimpleGraph.Walk.start_mem_support q)
    have hbC : q.getVert (q.length - 1) ∈ (SimpleGraph.Walk.cons hadj q).support := by
      rw [SimpleGraph.Walk.support_cons]
      exact List.mem_cons_of_mem _ (walk_getVert_mem_support q (q.length - 1))
    have hne_au : b0 ≠ u := fun he => ((floorGraph g).ne_of_adj hadj) he.symm
    have hne_bu : q.getVert (q.length - 1) ≠ u := (floorGraph g).ne_of_adj hadjb
    obtain ⟨ka, hka_lt, hka_eq⟩ := hidx b0 hb0C hne_au
    obtain ⟨kb, hkb_lt, hkb_eq⟩ := hidx _ hbC hne_bu
    obtain ⟨j0, _, hjun⟩ := inv.uniq iu (by omega) hiulen
    have hadj_a : cellAdj (Lget L ka) (Lget L iu) := by
      rw [hka_eq, ← huq]
      exact cellAdj_symm hadj
    have hadj_b : cellAdj (Lget L kb) (Lget L iu) := by
      rw [hkb_eq, ← huq]
      exact hadjb
    have hea := hjun ka ⟨hka_lt, hadj_a⟩
    have heb := hjun kb ⟨hkb_lt, hadj_b⟩
    apply hne_ab
    apply Subtype.ext
    rw [← hka_eq, ← hkb_eq, hea, heb]

/-- The floor graph of an invariant grid is acyclic. -/
theorem mazeInv_acyclic (cols rows : ℤ) (g : Grid) (L : List (ℤ × ℤ))
    (inv : MazeInv cols rows g L) : (floorGraph g).IsAcyclic := by
  intro v W hW
  obtain ⟨iv, hivlen, hivq⟩ := mem_index L v.1 ((inv.mem_iff _).2 v.2)
  have hivI : iv ∈ (Finset.range L.length).filter
      (fun i => ∃ w ∈ W.support, w.1 = Lget L i) :=
    Finset.mem_filter.2 ⟨Finset.mem_range.2 hivlen,
      ⟨v, W.start_mem_support, hivq.symm⟩⟩
  obtain ⟨iu, hiuI, hmax⟩ := Finset.exists_max_image
    ((Finset.range L.length).filter
      (fun i => ∃ w ∈ W.support, w.1 = Lget L i)) id ⟨iv, hivI⟩
  have hiu2 := Finset.mem_filter.1 hiuI
  obtain ⟨u, huW, huq⟩ := hiu2.2
  have hiulen : iu < L.length := Finset.mem_range.1 hiu2.1
  have hidx : ∀ w : {p : ℤ × ℤ // isFloor g p},
      w ∈ W.support → w ≠ u → ∃ k, k < iu ∧ Lget L k = w.1 := by
    intro w hwW hne
    obtain ⟨k, hklen, hkq⟩ := mem_index L w.1 ((inv.mem_iff _).2 w.2)
    have hkI : k ∈ (Finset.range L.length).filter
        (fun i => ∃ w2 ∈ W.support, w2.1 = Lget L i) :=
      Finset.mem_filter.2 ⟨Finset.mem_range.2 hklen, ⟨w, hwW, hkq.symm⟩⟩
    have hkle : k ≤ iu := hmax k hkI
    have hkne : k ≠ iu := by
      intro he
      apply hne
      apply Subtype.ext
      rw [← hkq, he]
      exact huq.symm
    exact ⟨k, by omega, hkq⟩
  exact cycle_two_earlier cols rows g L inv u iu hiulen huq (W.rotate huW)
    (hW.rotate huW)
    (fun w hw hne => hidx w (rotate_support_subset v u W huW w hw) hne)

/-- Every carve-order cell is reachable from the first one in the floor
graph, by strong induction on the carve index via the unique-earlier-
neighbour component of the invariant. -/
theorem mazeInv_reach_index (cols rows : ℤ) (g : Grid) (L : List (ℤ × ℤ))
    (inv : MazeInv cols rows g L) (h0 : isFloor g (Lget L 0)) :
    ∀ i : ℕ, i < L.length → ∀ hfi : isFloor g (Lget L i),
      (floorGraph g).Reachable ⟨Lget L 0, h0⟩ ⟨Lget L i, hfi⟩ := by
  intro i
  induction i using Nat.strong_induction_on with
  | _ i ihI =>
    intro hi hfi
    rcases Nat.eq_zero_or_pos i with rfl | hpos
    · exact SimpleGraph.Reachable.refl _
    · obtain ⟨j, ⟨hjlt, hjadj⟩, _⟩ := inv.uniq i hpos hi
      have hjlen : j < L.length := lt_trans hjlt hi
      have hfj : isFloor g (Lget L j) := (inv.mem_iff _).1 (Lget_mem L j hjlen)
      have hr := ihI j hjlt hjlen hfj
      exact hr.trans (SimpleGraph.Adj.reachable
        (show (floorGraph g).Adj ⟨Lget L j, hfj⟩ ⟨Lget L i, hfi⟩ from hjadj))

/-- The floor graph of an invariant grid is connected. -/
theorem mazeInv_connected (cols rows : ℤ) (g : Grid) (L : List (ℤ × ℤ))
    (inv : MazeInv cols rows g L) (h0 : isFloor g (Lget L 0)) :
    (floorGraph g).Connected := by
  haveI : Nonempty {p : ℤ × ℤ // isFloor g p} := ⟨⟨Lget L 0, h0⟩⟩
  refine SimpleGraph.Connected.mk ?_
  intro a b
  obtain ⟨ia, hia, hea⟩ := mem_index L a.1 ((inv.mem_iff _).2 a.2)
  obtain ⟨ib, hib, heb⟩ := mem_index L b.1 ((inv.mem_iff _).2 b.2)
  have hfa : isFloor g (Lget L ia) := by rw [hea]; exact a.2
  have hfb : isFloor g (Lget L ib) := by rw [heb]; exact b.2
  have hra := mazeInv_reach_index cols rows g L inv h0 ia hia hfa
  have hrb := mazeInv_reach_index cols rows g L inv h0 ib hib hfb
  have hva : (⟨Lget L ia, hfa⟩ : {p : ℤ × ℤ // isFloor g p}) = a := Subtype.ext hea
  have hvb : (⟨Lget L ib, hfb⟩ : {p : ℤ × ℤ // isFloor g p}) = b := Subtype.ext heb
  rw [hva] at hra
  rw [hvb] at hrb
  exact hra.symm.trans hrb

/-- C1: for requested dimensions at least 3, generate_maze returns a grid
whose FLOOR cells form a tree under 4-neighbour adjacency: connected (every
FLOOR cell is reachable from (1,1)) and acyclic. -/
theorem C1_perfect_maze (shuffle : ℕ → List (ℤ × ℤ))
    (hsh : ∀ m, (shuffle m).Perm dirs) (cols0 rows0 : ℤ)
    (hc : 3 ≤ cols0) (hr : 3 ≤ rows0) :
    ∃ g : Grid, generate_maze shuffle cols0 rows0 = some g ∧
      ∃ h11 : isFloor g (1, 1),
        (floorGraph g).IsTree ∧
        ∀ (p : ℤ × ℤ) (hp : isFloor g p),
          (floorGraph g).Reachable ⟨(1, 1), h11⟩ ⟨p, hp⟩ := by
  obtain ⟨g, hmc, ⟨t, inv⟩, hall⟩ :=
    mazeCore_ok shuffle hsh cols0 rows0 (by omega) (by omega)
  have ho1 := oddAdjust_odd cols0
  have ho2 := oddAdjust_odd rows0
  have hc3 : 3 ≤ oddAdjust cols0 := (oddAdjust_three cols0).2 (by omega)
  have hr3 : 3 ≤ oddAdjust rows0 := (oddAdjust_three rows0).2 (by omega)
  have hexit : isFloor g (oddAdjust cols0 - 2, oddAdjust rows0 - 2) := by
    apply hall
    exact show (1 ≤ oddAdjust cols0 - 2 ∧
        oddAdjust cols0 - 2 < oddAdjust cols0 - 1 ∧
        1 ≤ oddAdjust rows0 - 2 ∧
        oddAdjust rows0 - 2 < oddAdjust rows0 - 1) ∧
        (oddAdjust cols0 - 2) % 2 = 1 ∧ (oddAdjust rows0 - 2) % 2 = 1 from
      ⟨⟨by omega, by omega, by omega, by omega⟩, by omega, by omega⟩
  have hnoop : setCell g (oddAdjust rows0 - 2) (oddAdjust cols0 - 2) 0 = g :=
    setCell_noop g (oddAdjust rows0 - 2) (oddAdjust cols0 - 2) 0 hexit
  have hgen : generate_maze shuffle cols0 rows0 = some g := by
    show (mazeCore shuffle cols0 rows0).map
      (fun g2 => setCell g2 (oddAdjust rows0 - 2) (oddAdjust cols0 - 2) 0) = some g
    rw [hmc, Option.map_some', hnoop]
  have h11 : isFloor g (1, 1) :=
    (inv.mem_iff (1, 1)).1 (List.mem_cons_self _ _)
  have h0 : isFloor g (Lget ((1, 1) :: t) 0) := h11
  refine ⟨g, hgen, h11, ?_, ?_⟩
  · exact SimpleGraph.IsTree.mk
      (mazeInv_connected (oddAdjust cols0) (oddAdjust rows0) g ((1, 1) :: t) inv h0)
      (mazeInv_acyclic (oddAdjust cols0) (oddAdjust rows0) g ((1, 1) :: t) inv)
  · intro p hp
    exact (mazeInv_connected (oddAdjust cols0) (oddAdjust rows0) g
      ((1, 1) :: t) inv h0).preconnected ⟨(1, 1), h11⟩ ⟨p, hp⟩

theorem C1_perfect_maze_witness :
    (∀ m, (shuffleId m).Perm dirs) ∧ (3:ℤ) ≤ 5 ∧ (3:ℤ) ≤ 7 ∧
    (∃ g : Grid, generate_maze shuffleId 5 7 = some g ∧
      ∃ h11 : isFloor g (1, 1),
        (floorGraph g).IsTree ∧
        ∀ (p : ℤ × ℤ) (hp : isFloor g p),
          (floorGraph g).Reachable ⟨(1, 1), h11⟩ ⟨p, hp⟩) :=
  ⟨fun _ => List.Perm.refl dirs, by decide, by decide,
    C1_perfect_maze shuffleId (fun _ => List.Perm.refl dirs) 5 7
      (by decide) (by decide)⟩
